import Mathlib

/-!
Verification of the attribute-run compiler of the `mdit` markdown editor.

The definitions below are a shallow embedding of the Rust sources:
  * `src/markdown/attributes.rs`  — `TextAttribute`, `AttributeSet` and its
    constructors (`syntax_hidden` / `syntax_visible` are embedded here as
    `synHidden` / `synVisible`);
  * `src/markdown/parser.rs`      — `NodeKind`, `MarkdownSpan`;
  * `src/editor/renderer.rs`      — `AttributeRun`, `cursor_in_span`,
    `syn_attrs` (the source's marker-style chooser), `collect_runs`,
    `fill_gaps`, `compute_attribute_runs`;
  * `src/editor/cursor_tracker.rs` — `find_containing_span`, `is_interesting`.

Source text is embedded as a list of bytes (`List Nat`); a Rust `&str` is
always valid UTF-8, and the one place the renderer slices the text
(`&text[start..end]` in the setext-heading arm) panics when an index is not
a character boundary, so the embedding of `collect_runs` returns
`Option (List AttributeRun)`: `none` models a panic, `some rs` models the
runs pushed into the output vector, in push order.

Rust's `sort_by_key(|r| r.range.0)` is a stable sort by start offset; the
output of a stable sort under a total key order is unique, so it is embedded
as stable insertion sort (`sortRuns`), which is extensionally identical.
-/

namespace Mdit

/-- `TextAttribute` from `src/markdown/attributes.rs`.  Color tokens are the
symbolic `&'static str` names; `FontSize` carries the `u8` point size and
`LineSpacing` tenths of a point (`u32`). -/
inductive TextAttribute where
  | Bold
  | Italic
  | Monospace
  | Hidden
  | FontSize (points : Nat)
  | ForegroundColor (token : String)
  | BackgroundColor (token : String)
  | ListMarker
  | BlockquoteBar
  | Strikethrough
  | LineSpacing (tenths : Nat)
  | HeadingSeparator
deriving DecidableEq, Repr

/-- `AttributeSet` — a newtype over `Vec<TextAttribute>`. -/
structure AttributeSet where
  attrs : List TextAttribute
deriving DecidableEq, Repr

/-- color token constants (the `&'static str` literals of the source). -/
def headingTok : String := "heading"

def codeBgTok : String := "code_bg"

def codeBlockBgTok : String := "code_block_bg"

def codeFgTok : String := "code_fg"

def linkTok : String := "link"

def strikethroughTok : String := "strikethrough"

def blockquoteTok : String := "blockquote"

def listMarkerTok : String := "list_marker"

def synTok : String := "syntax"

namespace AttributeSet

/-- `AttributeSet::contains` (`Vec::contains`, equality-based). -/
def contains (s : AttributeSet) (a : TextAttribute) : Bool :=
  s.attrs.any (fun b => decide (b = a))

/-- `AttributeSet::for_strong`. -/
def for_strong : AttributeSet := ⟨[.Bold]⟩

/-- `AttributeSet::for_emph`. -/
def for_emph : AttributeSet := ⟨[.Italic]⟩

/-- `AttributeSet::for_heading(level)`: size table {1↦32, 2↦26, 3↦21, _↦16},
always Bold + ForegroundColor("heading"), HeadingSeparator iff level ≤ 2. -/
def for_heading (level : Nat) : AttributeSet :=
  let size : Nat :=
    match level with
    | 1 => 32
    | 2 => 26
    | 3 => 21
    | _ => 16
  let base : List TextAttribute :=
    [.Bold, .FontSize size, .ForegroundColor headingTok]
  if level ≤ 2 then ⟨base ++ [.HeadingSeparator]⟩ else ⟨base⟩

/-- `AttributeSet::for_inline_code`. -/
def for_inline_code : AttributeSet :=
  ⟨[.Monospace, .BackgroundColor codeBgTok, .ForegroundColor codeFgTok]⟩

/-- `AttributeSet::for_code_block`. -/
def for_code_block : AttributeSet :=
  ⟨[.Monospace, .BackgroundColor codeBlockBgTok, .ForegroundColor codeFgTok]⟩

/-- `AttributeSet::for_link`. -/
def for_link : AttributeSet := ⟨[.ForegroundColor linkTok]⟩

/-- `AttributeSet::for_strikethrough`. -/
def for_strikethrough : AttributeSet :=
  ⟨[.Strikethrough, .ForegroundColor strikethroughTok]⟩

/-- `AttributeSet::for_blockquote`. -/
def for_blockquote : AttributeSet :=
  ⟨[.BlockquoteBar, .ForegroundColor blockquoteTok]⟩

/-- `AttributeSet::for_list_marker`. -/
def for_list_marker : AttributeSet :=
  ⟨[.ListMarker, .ForegroundColor listMarkerTok]⟩

/-- `AttributeSet::syntax_hidden` (named `synHidden` here). -/
def synHidden : AttributeSet := ⟨[.Hidden]⟩

/-- `AttributeSet::syntax_visible` (named `synVisible` here). -/
def synVisible : AttributeSet := ⟨[.ForegroundColor synTok]⟩

/-- `AttributeSet::plain`. -/
def plain : AttributeSet := ⟨[]⟩

end AttributeSet

/-- `NodeKind` from `src/markdown/parser.rs`. -/
inductive NodeKind where
  | Text
  | Strong
  | Emph
  | Code
  | Math
  | Link (url : String)
  | Heading (level : Nat)
  | CodeBlock (language : String)
  | Table
  | Footnote
  | Strikethrough
  | Image (url : String)
  | List
  | Item
  | BlockQuote
  | Paragraph
  | HtmlInline
  | Other
deriving DecidableEq, Repr

/-- `MarkdownSpan` from `src/markdown/parser.rs`: a kind, a byte range
`[start, end)` into the source, and ordered children. -/
inductive MarkdownSpan where
  | mk (kind : NodeKind) (source_range : Nat × Nat)
      (children : List MarkdownSpan)

namespace MarkdownSpan

def kind : MarkdownSpan → NodeKind
  | .mk k _ _ => k

def source_range : MarkdownSpan → Nat × Nat
  | .mk _ r _ => r

def children : MarkdownSpan → List MarkdownSpan
  | .mk _ _ cs => cs

end MarkdownSpan

/-- `AttributeRun` from `src/editor/renderer.rs`. -/
structure AttributeRun where
  range : Nat × Nat
  attrs : AttributeSet
deriving DecidableEq, Repr

/-- `cursor_in_span` (`src/editor/renderer.rs`): boundary-inclusive test. -/
def cursor_in_span (pos : Option Nat) (range : Nat × Nat) : Bool :=
  match pos with
  | none => false
  | some p => decide (range.1 ≤ p) && decide (p ≤ range.2)

/-- `syntax_attrs` (`src/editor/renderer.rs`), embedded as `syn_attrs`:
marker style depending on whether the cursor is inside `span_range`. -/
def syn_attrs (cursor_pos : Option Nat) (span_range : Nat × Nat) :
    AttributeSet :=
  if cursor_in_span cursor_pos span_range then AttributeSet.synVisible
  else AttributeSet.synHidden

/-- `str::is_char_boundary` on the byte embedding: true at the end of the
text and at any byte that is not a UTF-8 continuation byte. -/
def is_char_boundary (text : List Nat) (p : Nat) : Bool :=
  match text.get? p with
  | none => decide (p = text.length)
  | some b => !(decide (128 ≤ b) && decide (b < 192))

/-- `str::rfind('\n')` on a byte slice: byte index of the last `0x0A`. -/
def rfindNl : List Nat → Option Nat
  | [] => none
  | b :: bs =>
    match rfindNl bs with
    | some i => some (i + 1)
    | none => if b = 10 then some 0 else none

mutual

/-- `collect_runs` (`src/editor/renderer.rs`): the runs pushed for one node
(and its subtree), in push order.  `none` models a panic: the only
panic site is the setext slice `&text[start..end]`, which requires both
indices to be character boundaries. -/
def collect_runs (text : List Nat) (cursor_pos : Option Nat) :
    MarkdownSpan → Option (List AttributeRun)
  | .mk kind (s, e) children =>
    if s ≥ e ∨ s ≥ text.length then some []
    else
      let e2 := min e text.length
      let syn := syn_attrs cursor_pos (s, e)
      match kind with
      | .Strong =>
        let m := min 2 (e2 - s)
        some ([⟨(s, s + m), syn⟩]
          ++ (if s + m < e2 - m then
                [⟨(s + m, e2 - m), AttributeSet.for_strong⟩] else [])
          ++ [⟨(e2 - m, e2), syn⟩])
      | .Emph =>
        some ([⟨(s, s + 1), syn⟩]
          ++ (if s + 1 < e2 - 1 then
                [⟨(s + 1, e2 - 1), AttributeSet.for_emph⟩] else [])
          ++ [⟨(e2 - 1, e2), syn⟩])
      | .Code =>
        some ([⟨(s, s + 1), syn⟩]
          ++ (if s + 1 < e2 - 1 then
                [⟨(s + 1, e2 - 1), AttributeSet.for_inline_code⟩] else [])
          ++ [⟨(e2 - 1, e2), syn⟩])
      | .Heading level =>
        if text.get? s = some 35 then
          let plen := min (level + 1) (e2 - s)
          some ([⟨(s, s + plen), syn⟩]
            ++ (if s + plen < e2 then
                  [⟨(s + plen, e2), AttributeSet.for_heading level⟩] else []))
        else
          if is_char_boundary text s && is_char_boundary text e2 then
            match rfindNl ((text.drop s).take (e2 - s)) with
            | some nlRel =>
              let nlAbs := s + nlRel
              some ((if s < nlAbs then
                      [⟨(s, nlAbs), AttributeSet.for_heading level⟩] else [])
                ++ (if nlAbs < e2 then [⟨(nlAbs, e2), syn⟩] else []))
            | none => some [⟨(s, e2), AttributeSet.for_heading level⟩]
          else none
      | .Strikethrough =>
        let m := min 2 (e2 - s)
        some ([⟨(s, s + m), syn⟩]
          ++ (if s + m < e2 - m then
                [⟨(s + m, e2 - m), AttributeSet.for_strikethrough⟩] else [])
          ++ [⟨(e2 - m, e2), syn⟩])
      | .Link _ => some [⟨(s, e2), AttributeSet.for_link⟩]
      | .CodeBlock _ => some [⟨(s, e2), AttributeSet.for_code_block⟩]
      | .BlockQuote => some [⟨(s, e2), AttributeSet.for_blockquote⟩]
      | .List => collect_runs_list text cursor_pos children
      | .Item =>
        let markerEnd :=
          min (match children.head? with
               | some c => c.source_range.1
               | none => s + 2) e2
        do
          let rs ← collect_runs_list text cursor_pos children
          pure ((if s < markerEnd then
                  [⟨(s, markerEnd), AttributeSet.for_list_marker⟩] else [])
            ++ rs)
      | .Table => some [⟨(s, e2), AttributeSet.for_code_block⟩]
      | .Footnote => some [⟨(s, e2), AttributeSet.for_link⟩]
      | _ => collect_runs_list text cursor_pos children

/-- The loop bodies that push runs for a sequence of sibling spans. -/
def collect_runs_list (text : List Nat) (cursor_pos : Option Nat) :
    List MarkdownSpan → Option (List AttributeRun)
  | [] => some []
  | sp :: rest => do
    let a ← collect_runs text cursor_pos sp
    let b ← collect_runs_list text cursor_pos rest
    pure (a ++ b)

end

/-- Ordering of runs by start offset, the sort key of
`runs.sort_by_key(|r| r.range.0)`. -/
def runLE (a b : AttributeRun) : Prop :=
  a.range.1 ≤ b.range.1

instance : DecidableRel runLE := fun a b => Nat.decLe a.range.1 b.range.1

instance : IsTotal AttributeRun runLE :=
  ⟨fun a b => Nat.le_total a.range.1 b.range.1⟩

instance : IsTrans AttributeRun runLE :=
  ⟨fun _ _ _ hab hbc => Nat.le_trans hab hbc⟩

/-- Stable sort by start offset, the embedding of
`runs.sort_by_key(|r| r.range.0)` (a stable sort; stable sorts under a
total key preorder are extensionally unique, so stable insertion sort is a
faithful model). -/
def sortRuns (runs : List AttributeRun) : List AttributeRun :=
  List.insertionSort runLE runs

/-- The loop of `fill_gaps`: `pos` is the running `pos` variable (maximum
end offset covered so far). -/
def fillGapsGo (text_len : Nat) (pos : Nat) :
    List AttributeRun → List AttributeRun
  | [] =>
    if pos < text_len then [⟨(pos, text_len), AttributeSet.plain⟩] else []
  | r :: rs =>
    (if pos < r.range.1 then [⟨(pos, r.range.1), AttributeSet.plain⟩] else [])
      ++ r :: fillGapsGo text_len (max r.range.2 pos) rs

/-- `fill_gaps` (`src/editor/renderer.rs`): sort by start offset, then
insert `plain()` runs into every uncovered interval. -/
def fill_gaps (text_len : Nat) (runs : List AttributeRun) :
    List AttributeRun :=
  fillGapsGo text_len 0 (sortRuns runs)

/-- `compute_attribute_runs` (`src/editor/renderer.rs`): collect runs over
every top-level span, then fill gaps.  `none` models a panic. -/
def compute_attribute_runs (text : List Nat) (spans : List MarkdownSpan)
    (cursor_pos : Option Nat) : Option (List AttributeRun) :=
  (collect_runs_list text cursor_pos spans).map (fill_gaps text.length)

/-- `is_interesting` (`src/editor/cursor_tracker.rs`). -/
def is_interesting : NodeKind → Bool
  | .Text | .Other | .Paragraph | .List | .Item | .HtmlInline => false
  | _ => true

/-- `find_containing_span` (`src/editor/cursor_tracker.rs`): innermost
interesting span containing `pos` (both endpoints inclusive), children
preferred over the node, earlier siblings over later ones. -/
def find_containing_span : List MarkdownSpan → Nat → Option MarkdownSpan
  | [], _ => none
  | .mk k r cs :: rest, pos =>
    if r.1 ≤ pos ∧ pos ≤ r.2 then
      match find_containing_span cs pos with
      | some inner => some inner
      | none =>
        if is_interesting k then some (.mk k r cs)
        else find_containing_span rest pos
    else find_containing_span rest pos

/-- All spans of a forest, transitively (each node and its subtree). -/
def allSpans : List MarkdownSpan → List MarkdownSpan
  | [] => []
  | .mk k r cs :: rest => .mk k r cs :: (allSpans cs ++ allSpans rest)

/-- Boundary-inclusive position test used by the cursor query. -/
def containsPos (sp : MarkdownSpan) (p : Nat) : Bool :=
  decide (sp.source_range.1 ≤ p) && decide (p ≤ sp.source_range.2)

/-- One level of the parser's nesting contract: each child range is a
subset of `r`. -/
def childrenInRange (r : Nat × Nat) (cs : List MarkdownSpan) : Bool :=
  cs.all fun c => decide (r.1 ≤ c.source_range.1)
    && decide (c.source_range.2 ≤ r.2)

mutual

/-- The parser's nesting contract for a span: children ranges nested in
the parent's range, recursively. -/
def spanWF : MarkdownSpan → Bool
  | .mk _ r cs => childrenInRange r cs && forestWF cs

/-- The parser's nesting contract for a forest. -/
def forestWF : List MarkdownSpan → Bool
  | [] => true
  | sp :: rest => spanWF sp && forestWF rest

end

/-- `AttributeSet::font_size` (`find_map` of the `FontSize` fact, defaulting
to 16); the `f64` values are exact casts of `u8`, so `Nat` models them
faithfully. -/
def AttributeSet.font_size (s : AttributeSet) : Nat :=
  (s.attrs.findSome? fun a =>
    match a with
    | .FontSize n => some n
    | _ => none).getD 16

/-- A run is a nonempty subrange of `[0, len)`. -/
def RunBounded (len : Nat) (r : AttributeRun) : Prop :=
  r.range.1 < r.range.2 ∧ r.range.2 ≤ len

/-- How two runs computed from the same node under different caret
positions relate: equal ranges, and either equal attribute sets or both
are marker styles (`syntax_hidden` / `syntax_visible`). -/
def RunRel (a b : AttributeRun) : Prop :=
  a.range = b.range ∧
    (a.attrs = b.attrs ∨
      ((a.attrs = AttributeSet.synHidden ∨ a.attrs = AttributeSet.synVisible)
        ∧ (b.attrs = AttributeSet.synHidden ∨
           b.attrs = AttributeSet.synVisible)))

/-- Lift a relation to `Option`: both absent, or both present and related
(used to state that two runs of the compiler panic identically or produce
related outputs). -/
def optionRel (R : α → α → Prop) : Option α → Option α → Prop
  | none, none => True
  | some a, some b => R a b
  | _, _ => False

/-- Sorted by start offset. -/
def SortedByStart (rs : List AttributeRun) : Prop :=
  List.Pairwise runLE rs

/-- The runs of a compiler result (`[]` when the call panicked). -/
def runsOf (o : Option (List AttributeRun)) : List AttributeRun :=
  o.getD []

/-- Observer: the call completed and no run carries `Hidden`. -/
def noHiddenRuns (o : Option (List AttributeRun)) : Bool :=
  match o with
  | some rs => rs.all fun r => !(r.attrs.contains .Hidden)
  | none => false

/-- Observer: ranges of the runs carrying `Hidden`, in output order. -/
def hiddenRanges (o : Option (List AttributeRun)) : List (Nat × Nat) :=
  (runsOf o).filterMap fun r =>
    if r.attrs.contains .Hidden then some r.range else none

/-- Observer: some run carries `Monospace`. -/
def hasMonospaceRun (o : Option (List AttributeRun)) : Bool :=
  (runsOf o).any fun r => r.attrs.contains .Monospace

/-- The exact-partition property the specification claims of the output,
read off the claim: starting from offset `c`, each run begins exactly where
the previous one ended and the last ends at `len`. -/
def partitionChainFrom (len : Nat) : Nat → List AttributeRun → Bool
  | c, [] => c == len
  | c, r :: rs => (r.range.1 == c) && partitionChainFrom len r.range.2 rs

/-- The claim's partition property for a whole run list, from offset 0. -/
def partitionChain (len : Nat) (rs : List AttributeRun) : Bool :=
  partitionChainFrom len 0 rs

/-- The claim's check applied to a compiler result after sorting it by
start offset (vacuously true on a panic). -/
def partitionsAfterSorting (len : Nat) (o : Option (List AttributeRun)) :
    Bool :=
  match o with
  | some rs => partitionChain len (sortRuns rs)
  | none => true

mutual

/-- Absence of the renderer's only panic source in a subtree: every
Heading node that passes the degenerate-range guard either starts with
`#` (ATX, no slicing) or has its clamped range endpoints on character
boundaries, so the setext slice `&text[start..end]` cannot panic. -/
def spanSliceSafe (text : List Nat) : MarkdownSpan → Bool
  | .mk kind (s, e) cs =>
    (match kind with
     | .Heading _ =>
       if s ≥ e ∨ s ≥ text.length then true
       else
         decide (text.get? s = some 35)
           || (is_char_boundary text s
                && is_char_boundary text (min e text.length))
     | _ => true)
      && forestSliceSafe text cs

/-- `spanSliceSafe` over a forest. -/
def forestSliceSafe (text : List Nat) : List MarkdownSpan → Bool
  | [] => true
  | sp :: rest => spanSliceSafe text sp && forestSliceSafe text rest

end

/-- Bytes of `"hello **world** end"`. -/
def tHW : List Nat :=
  [104, 101, 108, 108, 111, 32, 42, 42, 119, 111, 114, 108, 100, 42, 42,
   32, 101, 110, 100]

/-- The parser's span forest for `"hello **world** end"`: a paragraph with
a Strong span at bytes `(6, 15)`. -/
def fHW : List MarkdownSpan :=
  [.mk .Paragraph (0, 19)
    [.mk .Text (0, 6) [],
     .mk .Strong (6, 15) [.mk .Text (8, 13) []],
     .mk .Text (15, 19) []]]

/-- Bytes of `"## Hello"` followed by a newline. -/
def tAtx : List Nat := [35, 35, 32, 72, 101, 108, 108, 111, 10]

/-- The parser's span forest for the ATX heading: `Heading{2}` at
`(0, 8)` with the text child at `(3, 8)`. -/
def fAtx : List MarkdownSpan :=
  [.mk (.Heading 2) (0, 8) [.mk .Text (3, 8) []]]

/-- Bytes of `"kursiv"`, newline, `"-"`, newline (a setext H2). -/
def tSetext : List Nat := [107, 117, 114, 115, 105, 118, 10, 45, 10]

/-- The parser's span forest for the setext heading: `Heading{2}` at
`(0, 8)` with the text child at `(0, 6)`. -/
def fSetext : List MarkdownSpan :=
  [.mk (.Heading 2) (0, 8) [.mk .Text (0, 6) []]]

/-- Bytes of three backticks, newline, three backticks, newline (the
empty fenced code block). -/
def tFence : List Nat := [96, 96, 96, 10, 96, 96, 96, 10]

/-- The parser's span forest for the empty fenced code block: one
`CodeBlock` span covering both fences. -/
def fFence : List MarkdownSpan := [.mk (.CodeBlock "") (0, 7) []]

/-- Bytes of `"abc"`. -/
def tAbc : List Nat := [97, 98, 99]

/-- Bytes of `"aé"` (the second character is two bytes, `0xC3 0xA9`). -/
def tAe : List Nat := [97, 195, 169]

/-- Two fully overlapping interesting siblings (malformed input used to
exercise the earlier-sibling preference). -/
def fSib : List MarkdownSpan :=
  [.mk .Strong (0, 10) [], .mk .Emph (0, 10) []]

/-- A Strong span with a nested Emph child. -/
def fNest : List MarkdownSpan :=
  [.mk .Strong (0, 10) [.mk .Emph (2, 8) []]]

/-- A forest violating the parser's nesting contract: a zero-width
Paragraph with a wide Strong child. -/
def fBadNest : List MarkdownSpan :=
  [.mk .Paragraph (0, 0) [.mk .Strong (0, 10) []]]

/-- The expected output of the compiler on `tHW`/`fHW` with no caret. -/
def rsHW : List AttributeRun :=
  [⟨(0, 6), AttributeSet.plain⟩,
   ⟨(6, 8), AttributeSet.synHidden⟩,
   ⟨(8, 13), AttributeSet.for_strong⟩,
   ⟨(13, 15), AttributeSet.synHidden⟩,
   ⟨(15, 19), AttributeSet.plain⟩]

/-- Kinds handled by the catch-all arm of `collect_runs` (recurse into
children, no run of the node's own). -/
def fallthrough_kind : NodeKind → Bool
  | .Text | .Math | .Image _ | .Paragraph | .HtmlInline | .Other => true
  | _ => false

/-! ## Unfolding lemmas, one per arm of `collect_runs` -/

theorem collect_runs_guard (text : List Nat) (c : Option Nat) (k : NodeKind)
    (s e : Nat) (cs : List MarkdownSpan) (h : s ≥ e ∨ s ≥ text.length) :
    collect_runs text c (.mk k (s, e) cs) = some [] := by
  unfold collect_runs
  rw [if_pos h]

theorem collect_runs_strong (text : List Nat) (c : Option Nat)
    (s e : Nat) (cs : List MarkdownSpan) (h : ¬(s ≥ e ∨ s ≥ text.length)) :
    collect_runs text c (.mk .Strong (s, e) cs) =
      some ([⟨(s, s + min 2 (min e text.length - s)), syn_attrs c (s, e)⟩]
        ++ (if s + min 2 (min e text.length - s) <
              min e text.length - min 2 (min e text.length - s) then
              [⟨(s + min 2 (min e text.length - s),
                 min e text.length - min 2 (min e text.length - s)),
                AttributeSet.for_strong⟩] else [])
        ++ [⟨(min e text.length - min 2 (min e text.length - s),
              min e text.length), syn_attrs c (s, e)⟩]) := by
  unfold collect_runs
  rw [if_neg h]

theorem collect_runs_emph (text : List Nat) (c : Option Nat)
    (s e : Nat) (cs : List MarkdownSpan) (h : ¬(s ≥ e ∨ s ≥ text.length)) :
    collect_runs text c (.mk .Emph (s, e) cs) =
      some ([⟨(s, s + 1), syn_attrs c (s, e)⟩]
        ++ (if s + 1 < min e text.length - 1 then
              [⟨(s + 1, min e text.length - 1), AttributeSet.for_emph⟩]
            else [])
        ++ [⟨(min e text.length - 1, min e text.length),
             syn_attrs c (s, e)⟩]) := by
  unfold collect_runs
  rw [if_neg h]

theorem collect_runs_code (text : List Nat) (c : Option Nat)
    (s e : Nat) (cs : List MarkdownSpan) (h : ¬(s ≥ e ∨ s ≥ text.length)) :
    collect_runs text c (.mk .Code (s, e) cs) =
      some ([⟨(s, s + 1), syn_attrs c (s, e)⟩]
        ++ (if s + 1 < min e text.length - 1 then
              [⟨(s + 1, min e text.length - 1),
                AttributeSet.for_inline_code⟩]
            else [])
        ++ [⟨(min e text.length - 1, min e text.length),
             syn_attrs c (s, e)⟩]) := by
  unfold collect_runs
  rw [if_neg h]

theorem collect_runs_heading_atx (text : List Nat) (c : Option Nat)
    (level s e : Nat) (cs : List MarkdownSpan)
    (h : ¬(s ≥ e ∨ s ≥ text.length)) (hhash : text.get? s = some 35) :
    collect_runs text c (.mk (.Heading level) (s, e) cs) =
      some ([⟨(s, s + min (level + 1) (min e text.length - s)),
             syn_attrs c (s, e)⟩]
        ++ (if s + min (level + 1) (min e text.length - s) <
              min e text.length then
              [⟨(s + min (level + 1) (min e text.length - s),
                 min e text.length), AttributeSet.for_heading level⟩]
            else [])) := by
  unfold collect_runs
  rw [if_neg h]
  simp only [hhash, if_pos]

theorem collect_runs_heading_setext_found (text : List Nat) (c : Option Nat)
    (level s e : Nat) (cs : List MarkdownSpan) (i : Nat)
    (h : ¬(s ≥ e ∨ s ≥ text.length)) (hhash : ¬(text.get? s = some 35))
    (hb : (is_char_boundary text s
            && is_char_boundary text (min e text.length)) = true)
    (hnl : rfindNl ((text.drop s).take (min e text.length - s)) = some i) :
    collect_runs text c (.mk (.Heading level) (s, e) cs) =
      some ((if s < s + i then
              [⟨(s, s + i), AttributeSet.for_heading level⟩] else [])
        ++ (if s + i < min e text.length then
              [⟨(s + i, min e text.length), syn_attrs c (s, e)⟩] else [])) := by
  unfold collect_runs
  rw [if_neg h]
  simp only [if_neg hhash, if_pos hb, hnl]

theorem collect_runs_heading_setext_none (text : List Nat) (c : Option Nat)
    (level s e : Nat) (cs : List MarkdownSpan)
    (h : ¬(s ≥ e ∨ s ≥ text.length)) (hhash : ¬(text.get? s = some 35))
    (hb : (is_char_boundary text s
            && is_char_boundary text (min e text.length)) = true)
    (hnl : rfindNl ((text.drop s).take (min e text.length - s)) = none) :
    collect_runs text c (.mk (.Heading level) (s, e) cs) =
      some [⟨(s, min e text.length), AttributeSet.for_heading level⟩] := by
  unfold collect_runs
  rw [if_neg h]
  simp only [if_neg hhash, if_pos hb, hnl]

theorem collect_runs_heading_panic (text : List Nat) (c : Option Nat)
    (level s e : Nat) (cs : List MarkdownSpan)
    (h : ¬(s ≥ e ∨ s ≥ text.length)) (hhash : ¬(text.get? s = some 35))
    (hb : ¬((is_char_boundary text s
              && is_char_boundary text (min e text.length)) = true)) :
    collect_runs text c (.mk (.Heading level) (s, e) cs) = none := by
  unfold collect_runs
  rw [if_neg h]
  simp only [if_neg hhash, if_neg hb]

theorem collect_runs_strike (text : List Nat) (c : Option Nat)
    (s e : Nat) (cs : List MarkdownSpan) (h : ¬(s ≥ e ∨ s ≥ text.length)) :
    collect_runs text c (.mk .Strikethrough (s, e) cs) =
      some ([⟨(s, s + min 2 (min e text.length - s)), syn_attrs c (s, e)⟩]
        ++ (if s + min 2 (min e text.length - s) <
              min e text.length - min 2 (min e text.length - s) then
              [⟨(s + min 2 (min e text.length - s),
                 min e text.length - min 2 (min e text.length - s)),
                AttributeSet.for_strikethrough⟩] else [])
        ++ [⟨(min e text.length - min 2 (min e text.length - s),
              min e text.length), syn_attrs c (s, e)⟩]) := by
  unfold collect_runs
  rw [if_neg h]

theorem collect_runs_link (text : List Nat) (c : Option Nat) (url : String)
    (s e : Nat) (cs : List MarkdownSpan) (h : ¬(s ≥ e ∨ s ≥ text.length)) :
    collect_runs text c (.mk (.Link url) (s, e) cs) =
      some [⟨(s, min e text.length), AttributeSet.for_link⟩] := by
  unfold collect_runs
  rw [if_neg h]

theorem collect_runs_codeblock (text : List Nat) (c : Option Nat)
    (lang : String) (s e : Nat) (cs : List MarkdownSpan)
    (h : ¬(s ≥ e ∨ s ≥ text.length)) :
    collect_runs text c (.mk (.CodeBlock lang) (s, e) cs) =
      some [⟨(s, min e text.length), AttributeSet.for_code_block⟩] := by
  unfold collect_runs
  rw [if_neg h]

theorem collect_runs_blockquote (text : List Nat) (c : Option Nat)
    (s e : Nat) (cs : List MarkdownSpan) (h : ¬(s ≥ e ∨ s ≥ text.length)) :
    collect_runs text c (.mk .BlockQuote (s, e) cs) =
      some [⟨(s, min e text.length), AttributeSet.for_blockquote⟩] := by
  unfold collect_runs
  rw [if_neg h]

theorem collect_runs_table (text : List Nat) (c : Option Nat)
    (s e : Nat) (cs : List MarkdownSpan) (h : ¬(s ≥ e ∨ s ≥ text.length)) :
    collect_runs text c (.mk .Table (s, e) cs) =
      some [⟨(s, min e text.length), AttributeSet.for_code_block⟩] := by
  unfold collect_runs
  rw [if_neg h]

theorem collect_runs_footnote (text : List Nat) (c : Option Nat)
    (s e : Nat) (cs : List MarkdownSpan) (h : ¬(s ≥ e ∨ s ≥ text.length)) :
    collect_runs text c (.mk .Footnote (s, e) cs) =
      some [⟨(s, min e text.length), AttributeSet.for_link⟩] := by
  unfold collect_runs
  rw [if_neg h]

theorem collect_runs_list_kind (text : List Nat) (c : Option Nat)
    (s e : Nat) (cs : List MarkdownSpan) (h : ¬(s ≥ e ∨ s ≥ text.length)) :
    collect_runs text c (.mk .List (s, e) cs) =
      collect_runs_list text c cs := by
  unfold collect_runs
  rw [if_neg h]

theorem collect_runs_item (text : List Nat) (c : Option Nat)
    (s e : Nat) (cs : List MarkdownSpan) (h : ¬(s ≥ e ∨ s ≥ text.length)) :
    collect_runs text c (.mk .Item (s, e) cs) =
      (collect_runs_list text c cs).bind (fun rs =>
        some ((if s < min (match cs.head? with
                           | some c0 => c0.source_range.1
                           | none => s + 2) (min e text.length) then
                [⟨(s, min (match cs.head? with
                           | some c0 => c0.source_range.1
                           | none => s + 2) (min e text.length)),
                  AttributeSet.for_list_marker⟩]
              else []) ++ rs)) := by
  unfold collect_runs
  rw [if_neg h]
  rfl

theorem collect_runs_fallthrough (text : List Nat) (c : Option Nat)
    (k : NodeKind) (s e : Nat) (cs : List MarkdownSpan)
    (h : ¬(s ≥ e ∨ s ≥ text.length)) (hk : fallthrough_kind k = true) :
    collect_runs text c (.mk k (s, e) cs) = collect_runs_list text c cs := by
  cases k <;> simp only [fallthrough_kind, Bool.false_eq_true] at hk <;>
    (unfold collect_runs; rw [if_neg h])

theorem fallthrough_of_not (k : NodeKind)
    (h1 : k = .Strong → False) (h2 : k = .Emph → False)
    (h3 : k = .Code → False) (h4 : ∀ level, k = .Heading level → False)
    (h5 : k = .Strikethrough → False) (h6 : ∀ url, k = .Link url → False)
    (h7 : ∀ lang, k = .CodeBlock lang → False)
    (h8 : k = .BlockQuote → False) (h9 : k = .List → False)
    (h10 : k = .Item → False) (h11 : k = .Table → False)
    (h12 : k = .Footnote → False) :
    fallthrough_kind k = true := by
  cases k <;>
    first
      | rfl
      | exact (h1 rfl).elim
      | exact (h2 rfl).elim
      | exact (h3 rfl).elim
      | exact (h4 _ rfl).elim
      | exact (h5 rfl).elim
      | exact (h6 _ rfl).elim
      | exact (h7 _ rfl).elim
      | exact (h8 rfl).elim
      | exact (h9 rfl).elim
      | exact (h10 rfl).elim
      | exact (h11 rfl).elim
      | exact (h12 rfl).elim

theorem collect_runs_list_nil (text : List Nat) (c : Option Nat) :
    collect_runs_list text c [] = some [] := by
  rw [collect_runs_list]

theorem collect_runs_list_cons (text : List Nat) (c : Option Nat)
    (sp : MarkdownSpan) (rest : List MarkdownSpan) :
    collect_runs_list text c (sp :: rest) =
      (collect_runs text c sp).bind (fun a =>
        (collect_runs_list text c rest).bind (fun b => some (a ++ b))) := by
  rw [collect_runs_list]
  rfl


/-! ## Range bounds of collected runs -/

/-- `rfind` returns an index inside the slice. -/
theorem rfindNl_lt_length : ∀ (l : List Nat) (i : Nat),
    rfindNl l = some i → i < l.length := by
  intro l
  induction l with
  | nil => intro i h; simp [rfindNl] at h
  | cons b bs ih =>
    intro i h
    rw [rfindNl] at h
    cases hbs : rfindNl bs with
    | some j =>
      simp only [hbs] at h
      replace h := Option.some.inj h
      subst h
      have := ih j hbs
      simp only [List.length_cons]
      omega
    | none =>
      simp only [hbs] at h
      split at h
      · replace h := Option.some.inj h
        subst h
        simp
      · exact Option.noConfusion h

theorem collect_runs_bounds (text : List Nat) (c : Option Nat) :
    ∀ sp : MarkdownSpan, ∀ rs, collect_runs text c sp = some rs →
      ∀ r ∈ rs, RunBounded text.length r := by
  refine collect_runs.induct text c
    (fun sp => ∀ rs, collect_runs text c sp = some rs →
      ∀ r ∈ rs, RunBounded text.length r)
    (fun l => ∀ rs, collect_runs_list text c l = some rs →
      ∀ r ∈ rs, RunBounded text.length r)
    ?_ ?_ ?_ ?_ ?_ ?_ ?_ ?_ ?_ ?_ ?_ ?_ ?_ ?_ ?_ ?_ ?_ ?_ ?_
  · intro k s e cs h rs hrs r hr
    rw [collect_runs_guard text c k s e cs h] at hrs
    replace hrs := Option.some.inj hrs
    subst hrs
    simp at hr
  · intro s e cs h rs hrs r hr
    rw [collect_runs_strong text c s e cs h] at hrs
    replace hrs := Option.some.inj hrs
    subst hrs
    push_neg at h
    simp only [List.mem_append, List.mem_singleton] at hr
    rcases hr with (hr | hr) | hr
    · subst hr; dsimp only [RunBounded]; omega
    · split at hr
      · rename_i hc
        simp only [List.mem_singleton] at hr
        subst hr; dsimp only [RunBounded]
        exact ⟨by simpa using hc, by omega⟩
      · simp at hr
    · subst hr; dsimp only [RunBounded]; omega
  · intro s e cs h rs hrs r hr
    rw [collect_runs_emph text c s e cs h] at hrs
    replace hrs := Option.some.inj hrs
    subst hrs
    push_neg at h
    simp only [List.mem_append, List.mem_singleton] at hr
    rcases hr with (hr | hr) | hr
    · subst hr; dsimp only [RunBounded]; omega
    · split at hr
      · rename_i hc
        simp only [List.mem_singleton] at hr
        subst hr; dsimp only [RunBounded]
        exact ⟨by simpa using hc, by omega⟩
      · simp at hr
    · subst hr; dsimp only [RunBounded]; omega
  · intro s e cs h rs hrs r hr
    rw [collect_runs_code text c s e cs h] at hrs
    replace hrs := Option.some.inj hrs
    subst hrs
    push_neg at h
    simp only [List.mem_append, List.mem_singleton] at hr
    rcases hr with (hr | hr) | hr
    · subst hr; dsimp only [RunBounded]; omega
    · split at hr
      · rename_i hc
        simp only [List.mem_singleton] at hr
        subst hr; dsimp only [RunBounded]
        exact ⟨by simpa using hc, by omega⟩
      · simp at hr
    · subst hr; dsimp only [RunBounded]; omega
  · intro s e cs h level hhash rs hrs r hr
    rw [collect_runs_heading_atx text c level s e cs h hhash] at hrs
    replace hrs := Option.some.inj hrs
    subst hrs
    push_neg at h
    simp only [List.mem_append, List.mem_singleton] at hr
    rcases hr with hr | hr
    · subst hr; dsimp only [RunBounded]; omega
    · split at hr
      · rename_i hc
        simp only [List.mem_singleton] at hr
        subst hr; dsimp only [RunBounded]
        exact ⟨by simpa using hc, by omega⟩
      · simp at hr
  · intro s e cs h e2 level hhash hb i hnl rs hrs r hr
    have he2 : e2 = min e text.length := rfl
    rw [he2] at hb hnl
    rw [collect_runs_heading_setext_found text c level s e cs i h hhash hb hnl]
      at hrs
    replace hrs := Option.some.inj hrs
    subst hrs
    push_neg at h
    have hlen := rfindNl_lt_length _ _ hnl
    simp only [List.length_take, List.length_drop] at hlen
    simp only [List.mem_append] at hr
    rcases hr with hr | hr
    · split at hr
      · rename_i hc
        simp only [List.mem_singleton] at hr
        subst hr; dsimp only [RunBounded]
        exact ⟨by simpa using hc, by omega⟩
      · simp at hr
    · split at hr
      · rename_i hc
        simp only [List.mem_singleton] at hr
        subst hr; dsimp only [RunBounded]
        exact ⟨by simpa using hc, by omega⟩
      · simp at hr
  · intro s e cs h e2 level hhash hb hnl rs hrs r hr
    have he2 : e2 = min e text.length := rfl
    rw [he2] at hb hnl
    rw [collect_runs_heading_setext_none text c level s e cs h hhash hb hnl]
      at hrs
    replace hrs := Option.some.inj hrs
    subst hrs
    push_neg at h
    simp only [List.mem_singleton] at hr
    subst hr; dsimp only [RunBounded]; omega
  · intro s e cs h e2 level hhash hb rs hrs r hr
    have he2 : e2 = min e text.length := rfl
    rw [he2] at hb
    rw [collect_runs_heading_panic text c level s e cs h hhash hb] at hrs
    simp at hrs
  · intro s e cs h rs hrs r hr
    rw [collect_runs_strike text c s e cs h] at hrs
    replace hrs := Option.some.inj hrs
    subst hrs
    push_neg at h
    simp only [List.mem_append, List.mem_singleton] at hr
    rcases hr with (hr | hr) | hr
    · subst hr; dsimp only [RunBounded]; omega
    · split at hr
      · rename_i hc
        simp only [List.mem_singleton] at hr
        subst hr; dsimp only [RunBounded]
        exact ⟨by simpa using hc, by omega⟩
      · simp at hr
    · subst hr; dsimp only [RunBounded]; omega
  · intro s e cs h url rs hrs r hr
    rw [collect_runs_link text c url s e cs h] at hrs
    replace hrs := Option.some.inj hrs
    subst hrs
    push_neg at h
    simp only [List.mem_singleton] at hr
    subst hr; dsimp only [RunBounded]; omega
  · intro s e cs h lang rs hrs r hr
    rw [collect_runs_codeblock text c lang s e cs h] at hrs
    replace hrs := Option.some.inj hrs
    subst hrs
    push_neg at h
    simp only [List.mem_singleton] at hr
    subst hr; dsimp only [RunBounded]; omega
  · intro s e cs h rs hrs r hr
    rw [collect_runs_blockquote text c s e cs h] at hrs
    replace hrs := Option.some.inj hrs
    subst hrs
    push_neg at h
    simp only [List.mem_singleton] at hr
    subst hr; dsimp only [RunBounded]; omega
  · intro s e cs h ih rs hrs r hr
    rw [collect_runs_list_kind text c s e cs h] at hrs
    exact ih rs hrs r hr
  · intro s e cs h ih rs hrs r hr
    rw [collect_runs_item text c s e cs h] at hrs
    obtain ⟨rs2, hrs2, heq⟩ := Option.bind_eq_some.mp hrs
    replace heq := Option.some.inj heq
    subst heq
    push_neg at h
    simp only [List.mem_append] at hr
    rcases hr with hr | hr
    · split at hr
      · rename_i hc
        simp only [List.mem_singleton] at hr
        subst hr; dsimp only [RunBounded]
        exact ⟨by simpa using hc, by omega⟩
      · simp at hr
    · exact ih rs2 hrs2 r hr
  · intro s e cs h rs hrs r hr
    rw [collect_runs_table text c s e cs h] at hrs
    replace hrs := Option.some.inj hrs
    subst hrs
    push_neg at h
    simp only [List.mem_singleton] at hr
    subst hr; dsimp only [RunBounded]; omega
  · intro s e cs h rs hrs r hr
    rw [collect_runs_footnote text c s e cs h] at hrs
    replace hrs := Option.some.inj hrs
    subst hrs
    push_neg at h
    simp only [List.mem_singleton] at hr
    subst hr; dsimp only [RunBounded]; omega
  · intro k s e cs h h1 h2 h3 h4 h5 h6 h7 h8 h9 h10 h11 h12 ih rs hrs r hr
    rw [collect_runs_fallthrough text c k s e cs h
      (fallthrough_of_not k h1 h2 h3 h4 h5 h6 h7 h8 h9 h10 h11 h12)] at hrs
    exact ih rs hrs r hr
  · intro rs hrs r hr
    rw [collect_runs_list_nil] at hrs
    replace hrs := Option.some.inj hrs
    subst hrs
    simp at hr
  · intro sp rest ih1 ih2 rs hrs r hr
    rw [collect_runs_list_cons] at hrs
    obtain ⟨a, ha, hrest⟩ := Option.bind_eq_some.mp hrs
    obtain ⟨b, hb2, heq⟩ := Option.bind_eq_some.mp hrest
    replace heq := Option.some.inj heq
    subst heq
    rcases List.mem_append.mp hr with hr | hr
    · exact ih1 a ha r hr
    · exact ih2 b hb2 r hr


/-- Bounds for a whole sibling list. -/
theorem collect_runs_list_bounds (text : List Nat) (c : Option Nat) :
    ∀ l rs, collect_runs_list text c l = some rs →
      ∀ r ∈ rs, RunBounded text.length r := by
  intro l
  induction l with
  | nil =>
    intro rs hrs r hr
    rw [collect_runs_list_nil] at hrs
    replace hrs := Option.some.inj hrs
    subst hrs
    simp at hr
  | cons sp rest ih =>
    intro rs hrs r hr
    rw [collect_runs_list_cons] at hrs
    obtain ⟨a, ha, hrest⟩ := Option.bind_eq_some.mp hrs
    obtain ⟨b, hb2, heq⟩ := Option.bind_eq_some.mp hrest
    replace heq := Option.some.inj heq
    subst heq
    rcases List.mem_append.mp hr with hr | hr
    · exact collect_runs_bounds text c sp a ha r hr
    · exact ih b hb2 r hr



/-! ## Caret congruence: the caret can only toggle marker styles -/

theorem syn_attrs_cases (c : Option Nat) (r : Nat × Nat) :
    syn_attrs c r = AttributeSet.synHidden ∨
      syn_attrs c r = AttributeSet.synVisible := by
  unfold syn_attrs
  split
  · exact Or.inr rfl
  · exact Or.inl rfl

theorem runRel_refl (r : AttributeRun) : RunRel r r :=
  ⟨rfl, Or.inl rfl⟩

theorem runRel_syn (c1 c2 : Option Nat) (sr : Nat × Nat) (p : Nat × Nat) :
    RunRel ⟨p, syn_attrs c1 sr⟩ ⟨p, syn_attrs c2 sr⟩ :=
  ⟨rfl, Or.inr ⟨syn_attrs_cases c1 sr, syn_attrs_cases c2 sr⟩⟩

theorem forall₂_runRel_refl : ∀ l : List AttributeRun, List.Forall₂ RunRel l l
  | [] => List.Forall₂.nil
  | r :: rs => List.Forall₂.cons (runRel_refl r) (forall₂_runRel_refl rs)

theorem collect_runs_cursor_rel (text : List Nat) (c1 c2 : Option Nat) :
    ∀ sp : MarkdownSpan,
      optionRel (List.Forall₂ RunRel)
        (collect_runs text c1 sp) (collect_runs text c2 sp) := by
  refine collect_runs.induct text c1
    (fun sp => optionRel (List.Forall₂ RunRel)
      (collect_runs text c1 sp) (collect_runs text c2 sp))
    (fun l => optionRel (List.Forall₂ RunRel)
      (collect_runs_list text c1 l) (collect_runs_list text c2 l))
    ?_ ?_ ?_ ?_ ?_ ?_ ?_ ?_ ?_ ?_ ?_ ?_ ?_ ?_ ?_ ?_ ?_ ?_ ?_
  · intro k s e cs h
    rw [collect_runs_guard text c1 k s e cs h,
        collect_runs_guard text c2 k s e cs h]
    exact List.Forall₂.nil
  · intro s e cs h
    rw [collect_runs_strong text c1 s e cs h,
        collect_runs_strong text c2 s e cs h]
    refine List.rel_append (List.Forall₂.cons (runRel_syn c1 c2 _ _)
      List.Forall₂.nil) (List.rel_append ?_
        (List.Forall₂.cons (runRel_syn c1 c2 _ _) List.Forall₂.nil))
    split
    · exact forall₂_runRel_refl _
    · exact List.Forall₂.nil
  · intro s e cs h
    rw [collect_runs_emph text c1 s e cs h,
        collect_runs_emph text c2 s e cs h]
    refine List.rel_append (List.Forall₂.cons (runRel_syn c1 c2 _ _)
      List.Forall₂.nil) (List.rel_append ?_
        (List.Forall₂.cons (runRel_syn c1 c2 _ _) List.Forall₂.nil))
    split
    · exact forall₂_runRel_refl _
    · exact List.Forall₂.nil
  · intro s e cs h
    rw [collect_runs_code text c1 s e cs h,
        collect_runs_code text c2 s e cs h]
    refine List.rel_append (List.Forall₂.cons (runRel_syn c1 c2 _ _)
      List.Forall₂.nil) (List.rel_append ?_
        (List.Forall₂.cons (runRel_syn c1 c2 _ _) List.Forall₂.nil))
    split
    · exact forall₂_runRel_refl _
    · exact List.Forall₂.nil
  · intro s e cs h level hhash
    rw [collect_runs_heading_atx text c1 level s e cs h hhash,
        collect_runs_heading_atx text c2 level s e cs h hhash]
    refine List.rel_append (List.Forall₂.cons (runRel_syn c1 c2 _ _)
      List.Forall₂.nil) ?_
    split
    · exact forall₂_runRel_refl _
    · exact List.Forall₂.nil
  · intro s e cs h e2 level hhash hb i hnl
    have he2 : e2 = min e text.length := rfl
    rw [he2] at hb hnl
    rw [collect_runs_heading_setext_found text c1 level s e cs i h hhash hb hnl,
        collect_runs_heading_setext_found text c2 level s e cs i h hhash hb hnl]
    refine List.rel_append ?_ ?_
    · split
      · exact forall₂_runRel_refl _
      · exact List.Forall₂.nil
    · split
      · exact List.Forall₂.cons (runRel_syn c1 c2 _ _) List.Forall₂.nil
      · exact List.Forall₂.nil
  · intro s e cs h e2 level hhash hb hnl
    have he2 : e2 = min e text.length := rfl
    rw [he2] at hb hnl
    rw [collect_runs_heading_setext_none text c1 level s e cs h hhash hb hnl,
        collect_runs_heading_setext_none text c2 level s e cs h hhash hb hnl]
    exact forall₂_runRel_refl _
  · intro s e cs h e2 level hhash hb
    have he2 : e2 = min e text.length := rfl
    rw [he2] at hb
    rw [collect_runs_heading_panic text c1 level s e cs h hhash hb,
        collect_runs_heading_panic text c2 level s e cs h hhash hb]
    trivial
  · intro s e cs h
    rw [collect_runs_strike text c1 s e cs h,
        collect_runs_strike text c2 s e cs h]
    refine List.rel_append (List.Forall₂.cons (runRel_syn c1 c2 _ _)
      List.Forall₂.nil) (List.rel_append ?_
        (List.Forall₂.cons (runRel_syn c1 c2 _ _) List.Forall₂.nil))
    split
    · exact forall₂_runRel_refl _
    · exact List.Forall₂.nil
  · intro s e cs h url
    rw [collect_runs_link text c1 url s e cs h,
        collect_runs_link text c2 url s e cs h]
    exact forall₂_runRel_refl _
  · intro s e cs h lang
    rw [collect_runs_codeblock text c1 lang s e cs h,
        collect_runs_codeblock text c2 lang s e cs h]
    exact forall₂_runRel_refl _
  · intro s e cs h
    rw [collect_runs_blockquote text c1 s e cs h,
        collect_runs_blockquote text c2 s e cs h]
    exact forall₂_runRel_refl _
  · intro s e cs h ih
    rw [collect_runs_list_kind text c1 s e cs h,
        collect_runs_list_kind text c2 s e cs h]
    exact ih
  · intro s e cs h ih
    rw [collect_runs_item text c1 s e cs h,
        collect_runs_item text c2 s e cs h]
    cases h1 : collect_runs_list text c1 cs with
    | none =>
      cases h2 : collect_runs_list text c2 cs with
      | none => trivial
      | some b => rw [h1, h2] at ih; exact absurd ih (by simp [optionRel])
    | some a =>
      cases h2 : collect_runs_list text c2 cs with
      | none => rw [h1, h2] at ih; exact absurd ih (by simp [optionRel])
      | some b =>
        rw [h1, h2] at ih
        dsimp only [Option.bind]
        exact List.rel_append (by split <;>
          [exact forall₂_runRel_refl _; exact List.Forall₂.nil]) ih
  · intro s e cs h
    rw [collect_runs_table text c1 s e cs h,
        collect_runs_table text c2 s e cs h]
    exact forall₂_runRel_refl _
  · intro s e cs h
    rw [collect_runs_footnote text c1 s e cs h,
        collect_runs_footnote text c2 s e cs h]
    exact forall₂_runRel_refl _
  · intro k s e cs h h1 h2 h3 h4 h5 h6 h7 h8 h9 h10 h11 h12 ih
    rw [collect_runs_fallthrough text c1 k s e cs h
        (fallthrough_of_not k h1 h2 h3 h4 h5 h6 h7 h8 h9 h10 h11 h12),
      collect_runs_fallthrough text c2 k s e cs h
        (fallthrough_of_not k h1 h2 h3 h4 h5 h6 h7 h8 h9 h10 h11 h12)]
    exact ih
  · show optionRel (List.Forall₂ RunRel)
      (collect_runs_list text c1 []) (collect_runs_list text c2 [])
    rw [collect_runs_list_nil, collect_runs_list_nil]
    exact List.Forall₂.nil
  · intro sp rest ih1 ih2
    rw [collect_runs_list_cons, collect_runs_list_cons]
    cases ha1 : collect_runs text c1 sp with
    | none =>
      cases ha2 : collect_runs text c2 sp with
      | none => trivial
      | some a2 => rw [ha1, ha2] at ih1; exact absurd ih1 (by simp [optionRel])
    | some a1 =>
      cases ha2 : collect_runs text c2 sp with
      | none => rw [ha1, ha2] at ih1; exact absurd ih1 (by simp [optionRel])
      | some a2 =>
        rw [ha1, ha2] at ih1
        cases hb1 : collect_runs_list text c1 rest with
        | none =>
          cases hb2 : collect_runs_list text c2 rest with
          | none => trivial
          | some b2 =>
            rw [hb1, hb2] at ih2; exact absurd ih2 (by simp [optionRel])
        | some b1 =>
          cases hb2 : collect_runs_list text c2 rest with
          | none =>
            rw [hb1, hb2] at ih2; exact absurd ih2 (by simp [optionRel])
          | some b2 =>
            rw [hb1, hb2] at ih2
            dsimp only [Option.bind]
            exact List.rel_append ih1 ih2

theorem collect_runs_list_cursor_rel (text : List Nat) (c1 c2 : Option Nat) :
    ∀ l : List MarkdownSpan,
      optionRel (List.Forall₂ RunRel)
        (collect_runs_list text c1 l) (collect_runs_list text c2 l) := by
  intro l
  induction l with
  | nil =>
    rw [collect_runs_list_nil, collect_runs_list_nil]
    exact List.Forall₂.nil
  | cons sp rest ih =>
    have ih1 := collect_runs_cursor_rel text c1 c2 sp
    rw [collect_runs_list_cons, collect_runs_list_cons]
    cases ha1 : collect_runs text c1 sp with
    | none =>
      cases ha2 : collect_runs text c2 sp with
      | none => trivial
      | some a2 => rw [ha1, ha2] at ih1; exact absurd ih1 (by simp [optionRel])
    | some a1 =>
      cases ha2 : collect_runs text c2 sp with
      | none => rw [ha1, ha2] at ih1; exact absurd ih1 (by simp [optionRel])
      | some a2 =>
        rw [ha1, ha2] at ih1
        cases hb1 : collect_runs_list text c1 rest with
        | none =>
          cases hb2 : collect_runs_list text c2 rest with
          | none => trivial
          | some b2 => rw [hb1, hb2] at ih; exact absurd ih (by simp [optionRel])
        | some b1 =>
          cases hb2 : collect_runs_list text c2 rest with
          | none => rw [hb1, hb2] at ih; exact absurd ih (by simp [optionRel])
          | some b2 =>
            rw [hb1, hb2] at ih
            dsimp only [Option.bind]
            exact List.rel_append ih1 ih

theorem orderedInsert_rel :
    ∀ {l1 l2 : List AttributeRun} {a b : AttributeRun}, RunRel a b →
      List.Forall₂ RunRel l1 l2 →
      List.Forall₂ RunRel (List.orderedInsert runLE a l1)
        (List.orderedInsert runLE b l2) := by
  intro l1 l2 a b hab h
  induction h with
  | nil => exact List.Forall₂.cons hab List.Forall₂.nil
  | cons hxy ht ih =>
    rename_i x y t1 t2
    have h1 : a.range.1 = b.range.1 := congrArg Prod.fst hab.1
    have h2 : x.range.1 = y.range.1 := congrArg Prod.fst hxy.1
    by_cases hc : runLE a x
    · have hc2 : runLE b y := by unfold runLE at hc ⊢; omega
      simp only [List.orderedInsert, if_pos hc, if_pos hc2]
      exact List.Forall₂.cons hab (List.Forall₂.cons hxy ht)
    · have hc2 : ¬ runLE b y := by unfold runLE at hc ⊢; omega
      simp only [List.orderedInsert, if_neg hc, if_neg hc2]
      exact List.Forall₂.cons hxy ih

theorem sortRuns_rel {l1 l2 : List AttributeRun}
    (h : List.Forall₂ RunRel l1 l2) :
    List.Forall₂ RunRel (sortRuns l1) (sortRuns l2) := by
  induction h with
  | nil => exact List.Forall₂.nil
  | cons hxy ht ih =>
    simp only [sortRuns, List.insertionSort] at ih ⊢
    exact orderedInsert_rel hxy ih

theorem fillGapsGo_rel :
    ∀ {l1 l2 : List AttributeRun}, List.Forall₂ RunRel l1 l2 →
      ∀ len pos, List.Forall₂ RunRel (fillGapsGo len pos l1)
        (fillGapsGo len pos l2) := by
  intro l1 l2 h
  induction h with
  | nil => intro len pos; exact forall₂_runRel_refl _
  | cons hxy ht ih =>
    rename_i x y t1 t2
    intro len pos
    have h1 : x.range.1 = y.range.1 := congrArg Prod.fst hxy.1
    have h2 : x.range.2 = y.range.2 := congrArg Prod.snd hxy.1
    rw [fillGapsGo, fillGapsGo, h1, h2]
    refine List.rel_append ?_ (List.Forall₂.cons hxy (ih len _))
    split
    · exact forall₂_runRel_refl _
    · exact List.Forall₂.nil

theorem forall₂_map_range :
    ∀ {l1 l2 : List AttributeRun}, List.Forall₂ RunRel l1 l2 →
      l1.map AttributeRun.range = l2.map AttributeRun.range := by
  intro l1 l2 h
  induction h with
  | nil => rfl
  | cons hxy ht ih => simp only [List.map, hxy.1, ih]


/-! ## Totality under the slice-safety condition -/

theorem forestSliceSafe_nil (text : List Nat) :
    forestSliceSafe text [] = true := by
  rw [forestSliceSafe]

theorem forestSliceSafe_cons (text : List Nat) (sp : MarkdownSpan)
    (rest : List MarkdownSpan)
    (h : forestSliceSafe text (sp :: rest) = true) :
    spanSliceSafe text sp = true ∧ forestSliceSafe text rest = true := by
  rw [forestSliceSafe] at h
  exact Bool.and_eq_true_iff.mp h

theorem spanSliceSafe_children (text : List Nat) (k : NodeKind)
    (s e : Nat) (cs : List MarkdownSpan)
    (h : spanSliceSafe text (.mk k (s, e) cs) = true) :
    forestSliceSafe text cs = true := by
  cases k <;>
    (rw [spanSliceSafe] at h; try exact (Bool.and_eq_true_iff.mp h).2)
  all_goals intro level hlev
  all_goals exact NodeKind.noConfusion hlev

theorem spanSliceSafe_heading (text : List Nat) (level s e : Nat)
    (cs : List MarkdownSpan) (hg : ¬(s ≥ e ∨ s ≥ text.length))
    (h : spanSliceSafe text (.mk (.Heading level) (s, e) cs) = true) :
    text.get? s = some 35 ∨
      (is_char_boundary text s
        && is_char_boundary text (min e text.length)) = true := by
  rw [spanSliceSafe] at h
  have h1 := (Bool.and_eq_true_iff.mp h).1
  rw [if_neg hg] at h1
  rcases Bool.or_eq_true_iff.mp h1 with h2 | h2
  · exact Or.inl (of_decide_eq_true h2)
  · exact Or.inr h2

theorem collect_runs_isSome_of_safe (text : List Nat) (c : Option Nat) :
    ∀ sp : MarkdownSpan, spanSliceSafe text sp = true →
      (collect_runs text c sp).isSome = true := by
  refine collect_runs.induct text c
    (fun sp => spanSliceSafe text sp = true →
      (collect_runs text c sp).isSome = true)
    (fun l => forestSliceSafe text l = true →
      (collect_runs_list text c l).isSome = true)
    ?_ ?_ ?_ ?_ ?_ ?_ ?_ ?_ ?_ ?_ ?_ ?_ ?_ ?_ ?_ ?_ ?_ ?_ ?_
  · intro k s e cs h hs
    rw [collect_runs_guard text c k s e cs h]
    rfl
  · intro s e cs h hs
    rw [collect_runs_strong text c s e cs h]
    rfl
  · intro s e cs h hs
    rw [collect_runs_emph text c s e cs h]
    rfl
  · intro s e cs h hs
    rw [collect_runs_code text c s e cs h]
    rfl
  · intro s e cs h level hhash hs
    rw [collect_runs_heading_atx text c level s e cs h hhash]
    rfl
  · intro s e cs h e2 level hhash hb i hnl hs
    have he2 : e2 = min e text.length := rfl
    rw [he2] at hb hnl
    rw [collect_runs_heading_setext_found text c level s e cs i h hhash hb hnl]
    rfl
  · intro s e cs h e2 level hhash hb hnl hs
    have he2 : e2 = min e text.length := rfl
    rw [he2] at hb hnl
    rw [collect_runs_heading_setext_none text c level s e cs h hhash hb hnl]
    rfl
  · intro s e cs h e2 level hhash hb hs
    have he2 : e2 = min e text.length := rfl
    rw [he2] at hb
    rcases spanSliceSafe_heading text level s e cs h hs with h2 | h2
    · exact absurd h2 hhash
    · exact absurd h2 hb
  · intro s e cs h hs
    rw [collect_runs_strike text c s e cs h]
    rfl
  · intro s e cs h url hs
    rw [collect_runs_link text c url s e cs h]
    rfl
  · intro s e cs h lang hs
    rw [collect_runs_codeblock text c lang s e cs h]
    rfl
  · intro s e cs h hs
    rw [collect_runs_blockquote text c s e cs h]
    rfl
  · intro s e cs h ih hs
    rw [collect_runs_list_kind text c s e cs h]
    exact ih (spanSliceSafe_children text .List s e cs hs)
  · intro s e cs h ih hs
    rw [collect_runs_item text c s e cs h]
    have h2 := ih (spanSliceSafe_children text .Item s e cs hs)
    obtain ⟨rs, hrs⟩ := Option.isSome_iff_exists.mp h2
    rw [hrs]
    rfl
  · intro s e cs h hs
    rw [collect_runs_table text c s e cs h]
    rfl
  · intro s e cs h hs
    rw [collect_runs_footnote text c s e cs h]
    rfl
  · intro k s e cs h h1 h2 h3 h4 h5 h6 h7 h8 h9 h10 h11 h12 ih hs
    rw [collect_runs_fallthrough text c k s e cs h
      (fallthrough_of_not k h1 h2 h3 h4 h5 h6 h7 h8 h9 h10 h11 h12)]
    exact ih (spanSliceSafe_children text k s e cs hs)
  · intro hs
    rw [collect_runs_list_nil]
    rfl
  · intro sp rest ih1 ih2 hs
    obtain ⟨hsp, hrest⟩ := forestSliceSafe_cons text sp rest hs
    rw [collect_runs_list_cons]
    obtain ⟨a, ha⟩ := Option.isSome_iff_exists.mp (ih1 hsp)
    obtain ⟨b, hb⟩ := Option.isSome_iff_exists.mp (ih2 hrest)
    rw [ha, hb]
    rfl

theorem collect_runs_list_isSome_of_safe (text : List Nat) (c : Option Nat) :
    ∀ l : List MarkdownSpan, forestSliceSafe text l = true →
      (collect_runs_list text c l).isSome = true := by
  intro l
  induction l with
  | nil =>
    intro hs
    rw [collect_runs_list_nil]
    rfl
  | cons sp rest ih =>
    intro hs
    obtain ⟨hsp, hrest⟩ := forestSliceSafe_cons text sp rest hs
    rw [collect_runs_list_cons]
    obtain ⟨a, ha⟩ :=
      Option.isSome_iff_exists.mp (collect_runs_isSome_of_safe text c sp hsp)
    obtain ⟨b, hb⟩ := Option.isSome_iff_exists.mp (ih hrest)
    rw [ha, hb]
    rfl


/-! ## Gap filling: coverage, bounds, sortedness -/

theorem fillGapsGo_cover :
    ∀ (rs : List AttributeRun) (len pos q : Nat), pos ≤ q → q < len →
      ∃ r ∈ fillGapsGo len pos rs, r.range.1 ≤ q ∧ q < r.range.2 := by
  intro rs
  induction rs with
  | nil =>
    intro len pos q h1 h2
    rw [fillGapsGo]
    rw [if_pos (Nat.lt_of_le_of_lt h1 h2)]
    exact ⟨⟨(pos, len), AttributeSet.plain⟩, List.mem_singleton_self _,
      h1, h2⟩
  | cons r rs ih =>
    intro len pos q h1 h2
    rw [fillGapsGo]
    by_cases hq : r.range.1 ≤ q
    · by_cases hq2 : q < r.range.2
      · refine ⟨r, ?_, hq, hq2⟩
        simp [List.mem_append]
      · obtain ⟨x, hx, hxb⟩ := ih len (max r.range.2 pos) q (by omega) h2
        refine ⟨x, ?_, hxb⟩
        simp only [List.mem_append, List.mem_cons]
        exact Or.inr (Or.inr hx)
    · have hgap : pos < r.range.1 := by omega
      rw [if_pos hgap]
      refine ⟨⟨(pos, r.range.1), AttributeSet.plain⟩, by simp, ?_, ?_⟩
      · dsimp only
        omega
      · dsimp only
        omega

theorem fillGapsGo_bounded :
    ∀ (rs : List AttributeRun) (len pos : Nat),
      (∀ r ∈ rs, RunBounded len r) →
      ∀ r ∈ fillGapsGo len pos rs, RunBounded len r := by
  intro rs
  induction rs with
  | nil =>
    intro len pos hb r hr
    rw [fillGapsGo] at hr
    split at hr
    · rw [List.mem_singleton] at hr
      subst hr
      exact ⟨by simpa using ‹pos < len›, Nat.le_refl len⟩
    · simp at hr
  | cons x rs ih =>
    intro len pos hb r hr
    have hx : RunBounded len x := hb x (List.mem_cons_self x rs)
    rw [fillGapsGo] at hr
    rcases List.mem_append.mp hr with hr | hr
    · split at hr
      · rw [List.mem_singleton] at hr
        subst hr
        refine ⟨by simpa using ‹pos < x.range.1›, ?_⟩
        have := hx.1
        have := hx.2
        simp only [RunBounded] at *
        omega
      · simp at hr
    · rcases List.mem_cons.mp hr with hr | hr
      · subst hr; exact hx
      · exact ih len (max x.range.2 pos)
          (fun r2 hr2 => hb r2 (List.mem_cons_of_mem x hr2)) r hr

theorem fillGapsGo_head_start :
    ∀ (rs : List AttributeRun) (len pos : Nat) (x : AttributeRun),
      (fillGapsGo len pos rs).head? = some x →
      pos ≤ x.range.1 ∨ rs.head? = some x := by
  intro rs len pos x h
  cases rs with
  | nil =>
    rw [fillGapsGo] at h
    split at h
    · rw [List.head?_cons] at h
      replace h := Option.some.inj h
      subst h
      exact Or.inl (Nat.le_refl pos)
    · simp at h
  | cons r rs =>
    rw [fillGapsGo] at h
    split at h
    · rw [List.singleton_append, List.head?_cons] at h
      replace h := Option.some.inj h
      subst h
      exact Or.inl (Nat.le_refl pos)
    · rw [List.nil_append, List.head?] at h
      replace h := Option.some.inj h
      subst h
      exact Or.inr rfl

theorem fillGapsGo_chain :
    ∀ (rs : List AttributeRun) (len pos : Nat),
      List.Chain' runLE rs → (∀ r ∈ rs, r.range.1 ≤ r.range.2) →
      List.Chain' runLE (fillGapsGo len pos rs) := by
  intro rs
  induction rs with
  | nil =>
    intro len pos hc hle
    rw [fillGapsGo]
    split
    · exact List.chain'_singleton _
    · exact List.chain'_nil
  | cons r rs ih =>
    intro len pos hc hle
    have htail : List.Chain' runLE rs := hc.tail
    have hletail : ∀ x ∈ rs, x.range.1 ≤ x.range.2 :=
      fun x hx => hle x (List.mem_cons_of_mem r hx)
    have hout : List.Chain' runLE (fillGapsGo len (max r.range.2 pos) rs) :=
      ih len (max r.range.2 pos) htail hletail
    have hlink : ∀ y ∈ (fillGapsGo len (max r.range.2 pos) rs).head?,
        runLE r y := by
      intro y hy
      rcases fillGapsGo_head_start rs len (max r.range.2 pos) y hy with h | h
      · have hre := hle r (List.mem_cons_self r rs)
        unfold runLE
        omega
      · rcases rs with _ | ⟨z, zs⟩
        · simp at h
        · rw [List.head?_cons] at h
          replace h := Option.some.inj h
          subst h
          exact (List.chain'_cons.mp hc).1
    have hcr : List.Chain' runLE (r :: fillGapsGo len (max r.range.2 pos) rs) :=
      List.chain'_cons'.mpr ⟨hlink, hout⟩
    rw [fillGapsGo]
    split
    · rename_i hgap
      refine List.chain'_cons'.mpr ⟨?_, hcr⟩
      intro y hy
      simp only [List.nil_append, List.head?_cons, Option.mem_def] at hy
      replace hy := Option.some.inj hy
      subst hy
      unfold runLE
      dsimp only
      omega
    · rw [List.nil_append]
      exact hcr


/-! ## Cursor containment query -/

theorem allSpans_cons (k : NodeKind) (r : Nat × Nat)
    (cs rest : List MarkdownSpan) :
    allSpans (.mk k r cs :: rest) =
      .mk k r cs :: (allSpans cs ++ allSpans rest) := by
  rw [allSpans]

theorem containsPos_iff (t : MarkdownSpan) (p : Nat) :
    containsPos t p = true ↔
      t.source_range.1 ≤ p ∧ p ≤ t.source_range.2 := by
  unfold containsPos
  simp [Bool.and_eq_true, decide_eq_true_eq]

theorem childrenInRange_mem (r : Nat × Nat) (cs : List MarkdownSpan)
    (h : childrenInRange r cs = true) (c : MarkdownSpan) (hc : c ∈ cs) :
    r.1 ≤ c.source_range.1 ∧ c.source_range.2 ≤ r.2 := by
  unfold childrenInRange at h
  rw [List.all_eq_true] at h
  have h2 := h c hc
  simp only [Bool.and_eq_true, decide_eq_true_eq] at h2
  exact h2

theorem spanWF_parts (k : NodeKind) (r : Nat × Nat) (cs : List MarkdownSpan)
    (h : spanWF (.mk k r cs) = true) :
    childrenInRange r cs = true ∧ forestWF cs = true := by
  rw [spanWF] at h
  exact Bool.and_eq_true_iff.mp h

theorem forestWF_cons (sp : MarkdownSpan) (rest : List MarkdownSpan)
    (h : forestWF (sp :: rest) = true) :
    spanWF sp = true ∧ forestWF rest = true := by
  rw [forestWF] at h
  exact Bool.and_eq_true_iff.mp h

theorem allSpans_range_sub :
    ∀ l : List MarkdownSpan, forestWF l = true → ∀ t ∈ allSpans l,
      ∃ c ∈ l, c.source_range.1 ≤ t.source_range.1 ∧
        t.source_range.2 ≤ c.source_range.2 := by
  refine allSpans.induct
    (fun l => forestWF l = true → ∀ t ∈ allSpans l,
      ∃ c ∈ l, c.source_range.1 ≤ t.source_range.1 ∧
        t.source_range.2 ≤ c.source_range.2) ?_ ?_
  · intro h t ht
    rw [allSpans] at ht
    simp at ht
  · intro k r cs rest ih1 ih2 h t ht
    obtain ⟨hsp, hrest⟩ := forestWF_cons _ _ h
    obtain ⟨hcir, hcs⟩ := spanWF_parts k r cs hsp
    rw [allSpans_cons] at ht
    rcases List.mem_cons.mp ht with rfl | ht
    · exact ⟨.mk k r cs, List.mem_cons_self _ _, Nat.le_refl _, Nat.le_refl _⟩
    · rcases List.mem_append.mp ht with ht | ht
      · obtain ⟨c, hcmem, hc1, hc2⟩ := ih1 hcs t ht
        obtain ⟨hr1, hr2⟩ := childrenInRange_mem r cs hcir c hcmem
        have hk : (MarkdownSpan.mk k r cs).source_range = r := rfl
        refine ⟨.mk k r cs, List.mem_cons_self _ _, ?_, ?_⟩ <;>
          (rw [hk]; omega)
      · obtain ⟨c, hcmem, hb⟩ := ih2 hrest t ht
        exact ⟨c, List.mem_cons_of_mem _ hcmem, hb⟩

theorem contains_of_descendant (k : NodeKind) (r : Nat × Nat)
    (cs : List MarkdownSpan) (hWF : spanWF (.mk k r cs) = true)
    (t : MarkdownSpan) (ht : t ∈ allSpans cs) (p : Nat)
    (hc : containsPos t p = true) : r.1 ≤ p ∧ p ≤ r.2 := by
  obtain ⟨hcir, hcs⟩ := spanWF_parts k r cs hWF
  obtain ⟨c, hcmem, hc1, hc2⟩ := allSpans_range_sub cs hcs t ht
  obtain ⟨hr1, hr2⟩ := childrenInRange_mem r cs hcir c hcmem
  rw [containsPos_iff] at hc
  omega

theorem find_containing_span_sound :
    ∀ (l : List MarkdownSpan) (p : Nat) (sp : MarkdownSpan),
      find_containing_span l p = some sp →
        sp ∈ allSpans l ∧ containsPos sp p = true ∧
          is_interesting sp.kind = true := by
  refine find_containing_span.induct
    (fun l p => ∀ sp, find_containing_span l p = some sp →
      sp ∈ allSpans l ∧ containsPos sp p = true ∧
        is_interesting sp.kind = true) ?_ ?_ ?_ ?_ ?_
  · intro pos sp h
    rw [find_containing_span] at h
    exact Option.noConfusion h
  · intro k r cs rest pos hcond c hc ih sp hsp
    rw [find_containing_span, if_pos hcond] at hsp
    rw [hc] at hsp
    replace hsp := Option.some.inj hsp
    subst hsp
    obtain ⟨hmem, hcp, hint⟩ := ih c hc
    refine ⟨?_, hcp, hint⟩
    rw [allSpans_cons]
    exact List.mem_cons_of_mem _ (List.mem_append_left _ hmem)
  · intro k r cs rest pos hcond hnone hint ih sp hsp
    rw [find_containing_span, if_pos hcond] at hsp
    rw [hnone, if_pos hint] at hsp
    replace hsp := Option.some.inj hsp
    subst hsp
    refine ⟨?_, ?_, ?_⟩
    · rw [allSpans_cons]
      exact List.mem_cons_self _ _
    · rw [containsPos_iff]
      exact hcond
    · exact hint
  · intro k r cs rest pos hcond hnone hnint ihcs ihrest sp hsp
    rw [find_containing_span, if_pos hcond] at hsp
    rw [hnone, if_neg hnint] at hsp
    obtain ⟨hmem, hcp, hint⟩ := ihrest sp hsp
    refine ⟨?_, hcp, hint⟩
    rw [allSpans_cons]
    exact List.mem_cons_of_mem _ (List.mem_append_right _ hmem)
  · intro k r cs rest pos hcond ihrest sp hsp
    rw [find_containing_span, if_neg hcond] at hsp
    obtain ⟨hmem, hcp, hint⟩ := ihrest sp hsp
    refine ⟨?_, hcp, hint⟩
    rw [allSpans_cons]
    exact List.mem_cons_of_mem _ (List.mem_append_right _ hmem)

theorem find_containing_span_none :
    ∀ (l : List MarkdownSpan) (p : Nat), forestWF l = true →
      find_containing_span l p = none → ∀ t ∈ allSpans l,
        ¬(containsPos t p = true ∧ is_interesting t.kind = true) := by
  refine find_containing_span.induct
    (fun l p => forestWF l = true → find_containing_span l p = none →
      ∀ t ∈ allSpans l,
        ¬(containsPos t p = true ∧ is_interesting t.kind = true)) ?_ ?_ ?_ ?_ ?_
  · intro pos hwf hfind t ht
    rw [allSpans] at ht
    simp at ht
  · intro k r cs rest pos hcond c hc ih hwf hfind t ht
    rw [find_containing_span, if_pos hcond, hc] at hfind
    exact Option.noConfusion hfind
  · intro k r cs rest pos hcond hnone hint ih hwf hfind t ht
    rw [find_containing_span, if_pos hcond, hnone, if_pos hint] at hfind
    exact Option.noConfusion hfind
  · intro k r cs rest pos hcond hnone hnint ihcs ihrest hwf hfind t ht
    rw [find_containing_span, if_pos hcond, hnone, if_neg hnint] at hfind
    obtain ⟨hsp, hrest⟩ := forestWF_cons _ _ hwf
    obtain ⟨hcir, hcs⟩ := spanWF_parts k r cs hsp
    rw [allSpans_cons] at ht
    rcases List.mem_cons.mp ht with rfl | ht
    · rintro ⟨hcp, hti⟩
      dsimp only [MarkdownSpan.kind] at hti
      exact hnint hti
    · rcases List.mem_append.mp ht with ht | ht
      · exact ihcs hcs hnone t ht
      · exact ihrest hrest hfind t ht
  · intro k r cs rest pos hcond ihrest hwf hfind t ht
    rw [find_containing_span, if_neg hcond] at hfind
    obtain ⟨hsp, hrest⟩ := forestWF_cons _ _ hwf
    rw [allSpans_cons] at ht
    rcases List.mem_cons.mp ht with rfl | ht
    · rintro ⟨hcp, hti⟩
      rw [containsPos_iff] at hcp
      exact hcond hcp
    · rcases List.mem_append.mp ht with ht | ht
      · rintro ⟨hcp, hti⟩
        exact hcond (contains_of_descendant k r cs hsp t ht pos hcp)
      · exact ihrest hrest hfind t ht

theorem find_containing_span_innermost :
    ∀ (l : List MarkdownSpan) (p : Nat), forestWF l = true →
      ∀ sp, find_containing_span l p = some sp →
        ∀ t ∈ allSpans sp.children,
          ¬(containsPos t p = true ∧ is_interesting t.kind = true) := by
  refine find_containing_span.induct
    (fun l p => forestWF l = true →
      ∀ sp, find_containing_span l p = some sp →
        ∀ t ∈ allSpans sp.children,
          ¬(containsPos t p = true ∧ is_interesting t.kind = true)) ?_ ?_ ?_ ?_ ?_
  · intro pos hwf sp hfind
    rw [find_containing_span] at hfind
    exact Option.noConfusion hfind
  · intro k r cs rest pos hcond c hc ih hwf sp hsp
    rw [find_containing_span, if_pos hcond, hc] at hsp
    replace hsp := Option.some.inj hsp
    subst hsp
    obtain ⟨hspwf, hrest⟩ := forestWF_cons _ _ hwf
    obtain ⟨hcir, hcs⟩ := spanWF_parts k r cs hspwf
    exact ih hcs c hc
  · intro k r cs rest pos hcond hnone hint ih hwf sp hsp
    rw [find_containing_span, if_pos hcond, hnone, if_pos hint] at hsp
    replace hsp := Option.some.inj hsp
    subst hsp
    obtain ⟨hspwf, hrest⟩ := forestWF_cons _ _ hwf
    obtain ⟨hcir, hcs⟩ := spanWF_parts k r cs hspwf
    dsimp only [MarkdownSpan.children]
    exact find_containing_span_none cs pos hcs hnone
  · intro k r cs rest pos hcond hnone hnint ihcs ihrest hwf sp hsp
    rw [find_containing_span, if_pos hcond, hnone, if_neg hnint] at hsp
    exact ihrest (forestWF_cons _ _ hwf).2 sp hsp
  · intro k r cs rest pos hcond ihrest hwf sp hsp
    rw [find_containing_span, if_neg hcond] at hsp
    exact ihrest (forestWF_cons _ _ hwf).2 sp hsp


/-! ## Claims -/

/-- Claim C9: for every level, `for_heading(level)` contains FontSize 32 when
level is 1, 26 when 2, 21 when 3 and 16 otherwise (also witnessed by the
`font_size` accessor), always contains Bold and ForegroundColor("heading"),
and contains HeadingSeparator exactly when level ≤ 2 — in particular
`for_heading(1)` and `for_heading(2)` have it and `for_heading(3)` does
not. -/
theorem for_heading_attribute_table :
    ∀ level : Nat,
      (AttributeSet.for_heading level).contains .Bold = true
      ∧ (AttributeSet.for_heading level).contains
          (.ForegroundColor headingTok) = true
      ∧ ((AttributeSet.for_heading level).contains .HeadingSeparator = true
          ↔ level ≤ 2)
      ∧ (AttributeSet.for_heading level).contains
          (.FontSize (if level = 1 then 32 else if level = 2 then 26
            else if level = 3 then 21 else 16)) = true
      ∧ (AttributeSet.for_heading level).font_size =
          (if level = 1 then 32 else if level = 2 then 26
           else if level = 3 then 21 else 16)
      ∧ (AttributeSet.for_heading 1).contains .HeadingSeparator = true
      ∧ (AttributeSet.for_heading 2).contains .HeadingSeparator = true
      ∧ (AttributeSet.for_heading 3).contains .HeadingSeparator = false := by
  intro level
  rcases level with _ | _ | _ | _ | n
  · decide
  · decide
  · decide
  · decide
  · have h4 : AttributeSet.for_heading (n + 4) =
        ⟨[.Bold, .FontSize 16, .ForegroundColor headingTok]⟩ := by
      unfold AttributeSet.for_heading
      rw [if_neg (by omega)]
      split
      · omega
      · omega
      · omega
      · rfl
    have hif1 : (if n + 4 = 1 then (32 : Nat) else if n + 4 = 2 then 26
        else if n + 4 = 3 then 21 else 16) = 16 := by
      rw [if_neg (by omega), if_neg (by omega), if_neg (by omega)]
    rw [h4, hif1]
    refine ⟨by decide, by decide, ?_, by decide, by decide,
      by decide, by decide, by decide⟩
    rw [show (AttributeSet.mk [.Bold, .FontSize 16,
      .ForegroundColor headingTok]).contains .HeadingSeparator = false
      from by decide]
    simp

/-- Claim C5: for every CodeBlock span with a non-degenerate range the
compiler emits exactly one run covering the whole end-clamped span with
`for_code_block` attributes, with no internal fence/content split and no
recursion into the span's children (the result is independent of `cs`). -/
theorem codeblock_uniform_run :
    ∀ (text : List Nat) (c : Option Nat) (lang : String) (s e : Nat)
      (cs : List MarkdownSpan), s < e → s < text.length →
      collect_runs text c (.mk (.CodeBlock lang) (s, e) cs) =
        some [⟨(s, min e text.length), AttributeSet.for_code_block⟩] := by
  intro text c lang s e cs h1 h2
  exact collect_runs_codeblock text c lang s e cs (by omega)

theorem codeblock_uniform_run_witness :
    0 < 7 ∧ 0 < tFence.length ∧
      collect_runs tFence none (.mk (.CodeBlock "") (0, 7) []) =
        some [⟨(0, min 7 tFence.length), AttributeSet.for_code_block⟩] :=
  ⟨by decide, by decide,
    codeblock_uniform_run tFence none "" 0 7 [] (by decide) (by decide)⟩

/-- Claim C4 (evaluation at the failing input): on the empty fenced code
block text with its single CodeBlock span, the compiler emits one uniform
`for_code_block` (Monospace) run and a trailing plain run — there are no
Hidden runs at all and there is a Monospace run, contradicting the claim
(and `src/tests/renderer_tests.rs`), which demand Hidden fences and zero
Monospace runs. -/
theorem empty_code_block_monospace_not_hidden :
    compute_attribute_runs tFence fFence none =
      some [⟨(0, 7), AttributeSet.for_code_block⟩,
            ⟨(7, 8), AttributeSet.plain⟩]
    ∧ hiddenRanges (compute_attribute_runs tFence fFence none) = []
    ∧ hasMonospaceRun (compute_attribute_runs tFence fFence none) = true := by
  decide

/-- Claim C1, counterexample: on `"abc"` with a single Strong span `(0, 3)`
the compiler returns runs `(0, 2)` and `(1, 3)`, which overlap; sorted by
start they do not partition `[0, 3)` exactly as the claim states. -/
theorem strong_overlap_counterexample :
    compute_attribute_runs tAbc [.mk .Strong (0, 3) []] none =
      some [⟨(0, 2), AttributeSet.synHidden⟩,
            ⟨(1, 3), AttributeSet.synHidden⟩]
    ∧ partitionsAfterSorting tAbc.length
        (compute_attribute_runs tAbc [.mk .Strong (0, 3) []] none) = false := by
  decide

/-- Claim C3, counterexample: a `Heading{1}` span `(0, 2)` over the bytes
of `"aé"` has a non-degenerate range, its first byte is not `#` and it
contains no newline, so the claim requires one `for_heading(1)` run over
the whole span; instead the setext slice `&text[0..2]` panics (byte 2 ends
inside the two-byte character), modelled as `none`. -/
theorem heading_slice_counterexample :
    collect_runs tAe none (.mk (.Heading 1) (0, 2) []) = none
    ∧ collect_runs tAe none (.mk (.Heading 1) (0, 2) []) ≠
        some [⟨(0, 2), AttributeSet.for_heading 1⟩] := by
  decide

/-- Claim C7, counterexample: `compute_attribute_runs` is not total — on
the bytes of `"aé"` with a `Heading{1}` span `(0, 2)` (a range not aligned
to character boundaries) the setext slice panics, modelled as `none`. -/
theorem compute_panic_counterexample :
    compute_attribute_runs tAe [.mk (.Heading 1) (0, 2) []] none = none := by
  decide

/-- Claim C7, amended: `compute_attribute_runs` never panics and never
aborts sibling processing for every text, caret and span tree in which
every Heading node that passes the degenerate-range guard either starts
with `#` or has clamped range endpoints on character boundaries (in
particular, all trees over such texts, malformed ranges included); the
setext byte-slice is the single exception to totality. -/
theorem compute_attribute_runs_total_of_slice_safe :
    ∀ (text : List Nat) (spans : List MarkdownSpan) (c : Option Nat),
      forestSliceSafe text spans = true →
      (compute_attribute_runs text spans c).isSome = true := by
  intro text spans c hs
  unfold compute_attribute_runs
  obtain ⟨rs, hrs⟩ := Option.isSome_iff_exists.mp
    (collect_runs_list_isSome_of_safe text c spans hs)
  rw [hrs]
  rfl

theorem compute_attribute_runs_total_of_slice_safe_witness :
    forestSliceSafe tHW fHW = true ∧
      (compute_attribute_runs tHW fHW (some 3)).isSome = true :=
  ⟨by decide,
    compute_attribute_runs_total_of_slice_safe tHW fHW (some 3) (by decide)⟩

/-- Claim C1, amended: for every source text, span forest and caret, a
returned run sequence is sorted by start offset, every run is a nonempty
subrange of `[0, text_len)`, and every position of `[0, text_len)` is
covered by some run (no gaps); exact partitioning can fail only because
collected runs may overlap, as in the counterexample. -/
theorem compute_attribute_runs_sorted_gapless :
    ∀ (text : List Nat) (spans : List MarkdownSpan) (c : Option Nat)
      (rs : List AttributeRun),
      compute_attribute_runs text spans c = some rs →
      SortedByStart rs
      ∧ (∀ r ∈ rs, RunBounded text.length r)
      ∧ (∀ q, q < text.length → ∃ r ∈ rs, r.range.1 ≤ q ∧ q < r.range.2) := by
  intro text spans c rs hrs
  unfold compute_attribute_runs at hrs
  cases hcol : collect_runs_list text c spans with
  | none => rw [hcol] at hrs; exact Option.noConfusion hrs
  | some collected =>
    rw [hcol] at hrs
    dsimp only [Option.map] at hrs
    replace hrs := Option.some.inj hrs
    subst hrs
    have hbounds : ∀ r ∈ collected, RunBounded text.length r :=
      collect_runs_list_bounds text c spans collected hcol
    have hsortmem : ∀ r ∈ sortRuns collected, RunBounded text.length r :=
      fun r hr =>
        hbounds r ((List.perm_insertionSort runLE collected).subset hr)
    refine ⟨?_, ?_, ?_⟩
    · unfold fill_gaps
      exact List.chain'_iff_pairwise.mp
        (fillGapsGo_chain (sortRuns collected) text.length 0
          (List.chain'_iff_pairwise.mpr
            (List.sorted_insertionSort runLE collected))
          (fun r hr => Nat.le_of_lt (hsortmem r hr).1))
    · unfold fill_gaps
      exact fillGapsGo_bounded (sortRuns collected) text.length 0 hsortmem
    · intro q hq
      unfold fill_gaps
      exact fillGapsGo_cover (sortRuns collected) text.length 0 q
        (Nat.zero_le q) hq

theorem compute_attribute_runs_sorted_gapless_witness :
    compute_attribute_runs tHW fHW none =
      some rsHW
    ∧ (SortedByStart rsHW
      ∧ (∀ r ∈ rsHW, RunBounded tHW.length r)
      ∧ (∀ q, q < tHW.length →
          ∃ r ∈ rsHW, r.range.1 ≤ q ∧ q < r.range.2)) :=
  ⟨by decide, compute_attribute_runs_sorted_gapless tHW fHW none _ (by decide)⟩

/-- Claim C2: the marker style chooser returns `syntax_hidden` whenever the
caret is absent, and for caret `p` returns `syntax_visible` exactly when
`node.start ≤ p ≤ node.end` (both endpoints inclusive), as used for the
marker sub-ranges of each node (shown here on the Strong arm); in
particular, for the Strong span `(6, 15)` in `"hello **world** end"`,
caret 6 or 15 yields zero Hidden runs while caret 3 or 20 yields Hidden
runs exactly over the marker ranges `(6, 8)` and `(13, 15)`. -/
theorem marker_visibility_boundary_inclusive :
    (∀ r : Nat × Nat, syn_attrs none r = AttributeSet.synHidden)
    ∧ (∀ (p : Nat) (r : Nat × Nat),
        syn_attrs (some p) r =
          if r.1 ≤ p ∧ p ≤ r.2 then AttributeSet.synVisible
          else AttributeSet.synHidden)
    ∧ (∀ (text : List Nat) (c : Option Nat) (s e : Nat)
        (cs : List MarkdownSpan), ¬(s ≥ e ∨ s ≥ text.length) →
        collect_runs text c (.mk .Strong (s, e) cs) =
          some ([⟨(s, s + min 2 (min e text.length - s)), syn_attrs c (s, e)⟩]
            ++ (if s + min 2 (min e text.length - s) <
                  min e text.length - min 2 (min e text.length - s) then
                  [⟨(s + min 2 (min e text.length - s),
                     min e text.length - min 2 (min e text.length - s)),
                    AttributeSet.for_strong⟩] else [])
            ++ [⟨(min e text.length - min 2 (min e text.length - s),
                  min e text.length), syn_attrs c (s, e)⟩]))
    ∧ noHiddenRuns (compute_attribute_runs tHW fHW (some 6)) = true
    ∧ noHiddenRuns (compute_attribute_runs tHW fHW (some 15)) = true
    ∧ hiddenRanges (compute_attribute_runs tHW fHW (some 3)) = [(6, 8), (13, 15)]
    ∧ hiddenRanges (compute_attribute_runs tHW fHW (some 20)) = [(6, 8), (13, 15)]
    ∧ hiddenRanges (compute_attribute_runs tHW fHW none) = [(6, 8), (13, 15)] := by
  refine ⟨fun r => rfl, ?_, fun text c s e cs h => collect_runs_strong text c s e cs h,
    by decide, by decide, by decide, by decide, by decide⟩
  intro p r
  unfold syn_attrs cursor_in_span
  by_cases h1 : r.1 ≤ p <;> by_cases h2 : p ≤ r.2 <;> simp [h1, h2]

theorem marker_visibility_boundary_inclusive_witness :
    ¬((6 : Nat) ≥ 15 ∨ 6 ≥ tHW.length)
    ∧ collect_runs tHW (some 6) (.mk .Strong (6, 15) []) =
        some ([⟨(6, 6 + min 2 (min 15 tHW.length - 6)),
               syn_attrs (some 6) (6, 15)⟩]
          ++ (if 6 + min 2 (min 15 tHW.length - 6) <
                min 15 tHW.length - min 2 (min 15 tHW.length - 6) then
                [⟨(6 + min 2 (min 15 tHW.length - 6),
                   min 15 tHW.length - min 2 (min 15 tHW.length - 6)),
                  AttributeSet.for_strong⟩] else [])
          ++ [⟨(min 15 tHW.length - min 2 (min 15 tHW.length - 6),
                min 15 tHW.length), syn_attrs (some 6) (6, 15)⟩]) :=
  ⟨by decide, marker_visibility_boundary_inclusive.2.2.1 tHW (some 6) 6 15 []
    (by decide)⟩

/-- Claim C3, amended: for every Heading span with a non-degenerate range,
if its first byte is `#` the compiler emits a visibility-rule run over the
first `min(level+1, span length)` bytes plus a `for_heading(level)`
remainder when one exists; otherwise, provided the clamped range endpoints
lie on character boundaries (else the slice panics), it emits
`for_heading(level)` before the last newline and a visibility-rule run from
that newline to the span end, or `for_heading(level)` over the whole span
when no newline exists.  Concretely: `"## Hello\n"` hides exactly
`(0, 3)`; `"kursiv\n-\n"` gives a `for_heading(2)` run at `(0, 6)` with
font size above 20 and a Hidden run at `(6, 8)`. -/
theorem heading_emission_rule :
    (∀ (text : List Nat) (c : Option Nat) (level s e : Nat)
       (cs : List MarkdownSpan), s < e → s < text.length →
       text.get? s = some 35 →
       collect_runs text c (.mk (.Heading level) (s, e) cs) =
         some ([⟨(s, s + min (level + 1) (min e text.length - s)),
                syn_attrs c (s, e)⟩]
           ++ (if s + min (level + 1) (min e text.length - s) <
                 min e text.length then
                 [⟨(s + min (level + 1) (min e text.length - s),
                    min e text.length), AttributeSet.for_heading level⟩]
               else [])))
    ∧ (∀ (text : List Nat) (c : Option Nat) (level s e : Nat)
        (cs : List MarkdownSpan) (i : Nat), s < e → s < text.length →
        ¬(text.get? s = some 35) →
        (is_char_boundary text s
          && is_char_boundary text (min e text.length)) = true →
        rfindNl ((text.drop s).take (min e text.length - s)) = some i →
        collect_runs text c (.mk (.Heading level) (s, e) cs) =
          some ((if s < s + i then
                  [⟨(s, s + i), AttributeSet.for_heading level⟩] else [])
            ++ (if s + i < min e text.length then
                  [⟨(s + i, min e text.length), syn_attrs c (s, e)⟩]
                else [])))
    ∧ (∀ (text : List Nat) (c : Option Nat) (level s e : Nat)
        (cs : List MarkdownSpan), s < e → s < text.length →
        ¬(text.get? s = some 35) →
        (is_char_boundary text s
          && is_char_boundary text (min e text.length)) = true →
        rfindNl ((text.drop s).take (min e text.length - s)) = none →
        collect_runs text c (.mk (.Heading level) (s, e) cs) =
          some [⟨(s, min e text.length), AttributeSet.for_heading level⟩])
    ∧ hiddenRanges (compute_attribute_runs tAtx fAtx none) = [(0, 3)]
    ∧ (⟨(3, 8), AttributeSet.for_heading 2⟩ : AttributeRun) ∈
        runsOf (compute_attribute_runs tAtx fAtx none)
    ∧ (⟨(0, 6), AttributeSet.for_heading 2⟩ : AttributeRun) ∈
        runsOf (compute_attribute_runs tSetext fSetext none)
    ∧ 20 < (AttributeSet.for_heading 2).font_size
    ∧ hiddenRanges (compute_attribute_runs tSetext fSetext none) = [(6, 8)] := by
  refine ⟨?_, ?_, ?_, by decide, by decide, by decide, by decide, by decide⟩
  · intro text c level s e cs h1 h2 hhash
    exact collect_runs_heading_atx text c level s e cs (by omega) hhash
  · intro text c level s e cs i h1 h2 hhash hb hnl
    exact collect_runs_heading_setext_found text c level s e cs i (by omega)
      hhash hb hnl
  · intro text c level s e cs h1 h2 hhash hb hnl
    exact collect_runs_heading_setext_none text c level s e cs (by omega)
      hhash hb hnl

theorem heading_emission_rule_witness :
    (0 : Nat) < 8 ∧ (0 : Nat) < tAtx.length ∧ tAtx.get? 0 = some 35
    ∧ collect_runs tAtx none (.mk (.Heading 2) (0, 8) [.mk .Text (3, 8) []]) =
        some ([⟨(0, 0 + min (2 + 1) (min 8 tAtx.length - 0)),
               syn_attrs none (0, 8)⟩]
          ++ (if 0 + min (2 + 1) (min 8 tAtx.length - 0) <
                min 8 tAtx.length then
                [⟨(0 + min (2 + 1) (min 8 tAtx.length - 0),
                   min 8 tAtx.length), AttributeSet.for_heading 2⟩]
              else [])) :=
  ⟨by decide, by decide, by decide,
    heading_emission_rule.1 tAtx none 2 0 8 [.mk .Text (3, 8) []]
      (by decide) (by decide) (by decide)⟩

/-- Claim C6, counterexample: on a forest violating the parser's nesting
contract (a zero-width Paragraph with a wide Strong child),
`find_containing_span` returns `none` at position 5 although an
interesting span containing 5 exists in the forest — the query only
descends into nodes whose own range contains the position. -/
theorem find_nonnested_counterexample :
    find_containing_span fBadNest 5 = none
    ∧ (MarkdownSpan.mk .Strong (0, 10) []) ∈ allSpans fBadNest
    ∧ containsPos (.mk .Strong (0, 10) []) 5 = true
    ∧ is_interesting (MarkdownSpan.mk .Strong (0, 10) []).kind = true := by
  refine ⟨?_, ?_, by decide, rfl⟩
  · simp [fBadNest, find_containing_span, is_interesting]
  · simp [fBadNest, allSpans]

/-- Claim C6, amended: any span returned by `find_containing_span` belongs
to the forest, contains the position (both endpoints inclusive) and has an
interesting kind (not Text/Paragraph/List/Item/HtmlInline/Other); under
the parser's nesting contract, `none` is returned exactly when no
interesting containing span exists, and a returned span is innermost (no
interesting descendant contains the position).  Earlier siblings are
preferred over later ones and children over containers, and a position
past all span ranges yields `none`. -/
theorem find_containing_span_innermost_interesting :
    (∀ (l : List MarkdownSpan) (p : Nat) (sp : MarkdownSpan),
       find_containing_span l p = some sp →
         sp ∈ allSpans l ∧ containsPos sp p = true ∧
           is_interesting sp.kind = true)
    ∧ (∀ (l : List MarkdownSpan) (p : Nat), forestWF l = true →
        find_containing_span l p = none → ∀ t ∈ allSpans l,
          ¬(containsPos t p = true ∧ is_interesting t.kind = true))
    ∧ (∀ (l : List MarkdownSpan) (p : Nat), forestWF l = true →
        ∀ sp, find_containing_span l p = some sp →
          ∀ t ∈ allSpans sp.children,
            ¬(containsPos t p = true ∧ is_interesting t.kind = true))
    ∧ find_containing_span fSib 5 = some (.mk .Strong (0, 10) [])
    ∧ find_containing_span fNest 5 = some (.mk .Emph (2, 8) [])
    ∧ find_containing_span fHW 200 = none := by
  refine ⟨find_containing_span_sound, find_containing_span_none,
    find_containing_span_innermost, ?_, ?_, ?_⟩
  · simp [fSib, find_containing_span, is_interesting]
  · simp [fNest, find_containing_span, is_interesting]
  · simp [fHW, find_containing_span, is_interesting]

theorem find_containing_span_innermost_interesting_witness :
    (MarkdownSpan.mk .Emph (2, 8) []) ∈ allSpans fNest
    ∧ containsPos (.mk .Emph (2, 8) []) 5 = true
    ∧ is_interesting (MarkdownSpan.mk .Emph (2, 8) []).kind = true :=
  find_containing_span_innermost_interesting.1 fNest 5
    (.mk .Emph (2, 8) [])
    (by simp [fNest, find_containing_span, is_interesting])

theorem collect_runs_clamp_ranges :
    ∀ (text : List Nat) (c : Option Nat) (k : NodeKind) (s e : Nat)
      (cs : List MarkdownSpan),
      Option.map (List.map AttributeRun.range)
        (collect_runs text c (.mk k (s, e) cs)) =
      Option.map (List.map AttributeRun.range)
        (collect_runs text c (.mk k (s, min e text.length) cs)) := by
  intro text c k s e cs
  by_cases hg : s ≥ e ∨ s ≥ text.length
  · have hg2 : s ≥ min e text.length ∨ s ≥ text.length := by omega
    rw [collect_runs_guard text c k s e cs hg,
        collect_runs_guard text c k s (min e text.length) cs hg2]
  · have hg2 : ¬(s ≥ min e text.length ∨ s ≥ text.length) := by omega
    have hmin : min (min e text.length) text.length = min e text.length := by
      omega
    cases k with
    | Strong =>
      rw [collect_runs_strong text c s e cs hg,
          collect_runs_strong text c s (min e text.length) cs hg2, hmin]
      by_cases hc : s + min 2 (min e text.length - s) <
          min e text.length - min 2 (min e text.length - s) <;>
        simp [hc]
    | Emph =>
      rw [collect_runs_emph text c s e cs hg,
          collect_runs_emph text c s (min e text.length) cs hg2, hmin]
      by_cases hc : s + 1 < min e text.length - 1 <;> simp [hc]
    | Code =>
      rw [collect_runs_code text c s e cs hg,
          collect_runs_code text c s (min e text.length) cs hg2, hmin]
      by_cases hc : s + 1 < min e text.length - 1 <;> simp [hc]
    | Strikethrough =>
      rw [collect_runs_strike text c s e cs hg,
          collect_runs_strike text c s (min e text.length) cs hg2, hmin]
      by_cases hc : s + min 2 (min e text.length - s) <
          min e text.length - min 2 (min e text.length - s) <;>
        simp [hc]
    | Heading level =>
      by_cases hhash : text.get? s = some 35
      · rw [collect_runs_heading_atx text c level s e cs hg hhash,
            collect_runs_heading_atx text c level s (min e text.length) cs
              hg2 hhash, hmin]
        by_cases hc : s + min (level + 1) (min e text.length - s) <
            min e text.length <;>
          simp [hc]
      · by_cases hb : (is_char_boundary text s
            && is_char_boundary text (min e text.length)) = true
        · have hb2 : (is_char_boundary text s
              && is_char_boundary text
                (min (min e text.length) text.length)) = true := by
            rw [hmin]; exact hb
          cases hnl : rfindNl ((text.drop s).take (min e text.length - s)) with
          | some i =>
            have hnl2 : rfindNl ((text.drop s).take
                (min (min e text.length) text.length - s)) = some i := by
              rw [hmin]; exact hnl
            rw [collect_runs_heading_setext_found text c level s e cs i hg
                  hhash hb hnl,
                collect_runs_heading_setext_found text c level s
                  (min e text.length) cs i hg2 hhash hb2 hnl2, hmin]
            by_cases hc1 : s < s + i <;>
              by_cases hc2 : s + i < min e text.length <;>
                simp [hc1, hc2]
          | none =>
            have hnl2 : rfindNl ((text.drop s).take
                (min (min e text.length) text.length - s)) = none := by
              rw [hmin]; exact hnl
            rw [collect_runs_heading_setext_none text c level s e cs hg
                  hhash hb hnl,
                collect_runs_heading_setext_none text c level s
                  (min e text.length) cs hg2 hhash hb2 hnl2, hmin]
        · have hb2 : ¬(is_char_boundary text s
              && is_char_boundary text
                (min (min e text.length) text.length)) = true := by
            rw [hmin]; exact hb
          rw [collect_runs_heading_panic text c level s e cs hg hhash hb,
              collect_runs_heading_panic text c level s (min e text.length)
                cs hg2 hhash hb2]
    | Link url =>
      rw [collect_runs_link text c url s e cs hg,
          collect_runs_link text c url s (min e text.length) cs hg2, hmin]
    | CodeBlock lang =>
      rw [collect_runs_codeblock text c lang s e cs hg,
          collect_runs_codeblock text c lang s (min e text.length) cs hg2,
          hmin]
    | BlockQuote =>
      rw [collect_runs_blockquote text c s e cs hg,
          collect_runs_blockquote text c s (min e text.length) cs hg2, hmin]
    | Table =>
      rw [collect_runs_table text c s e cs hg,
          collect_runs_table text c s (min e text.length) cs hg2, hmin]
    | Footnote =>
      rw [collect_runs_footnote text c s e cs hg,
          collect_runs_footnote text c s (min e text.length) cs hg2, hmin]
    | List =>
      rw [collect_runs_list_kind text c s e cs hg,
          collect_runs_list_kind text c s (min e text.length) cs hg2]
    | Item =>
      rw [collect_runs_item text c s e cs hg,
          collect_runs_item text c s (min e text.length) cs hg2, hmin]
    | Text =>
      rw [collect_runs_fallthrough text c .Text s e cs hg rfl,
          collect_runs_fallthrough text c .Text s (min e text.length) cs
            hg2 rfl]
    | Math =>
      rw [collect_runs_fallthrough text c .Math s e cs hg rfl,
          collect_runs_fallthrough text c .Math s (min e text.length) cs
            hg2 rfl]
    | Image url =>
      rw [collect_runs_fallthrough text c (.Image url) s e cs hg rfl,
          collect_runs_fallthrough text c (.Image url) s (min e text.length)
            cs hg2 rfl]
    | Paragraph =>
      rw [collect_runs_fallthrough text c .Paragraph s e cs hg rfl,
          collect_runs_fallthrough text c .Paragraph s (min e text.length)
            cs hg2 rfl]
    | HtmlInline =>
      rw [collect_runs_fallthrough text c .HtmlInline s e cs hg rfl,
          collect_runs_fallthrough text c .HtmlInline s (min e text.length)
            cs hg2 rfl]
    | Other =>
      rw [collect_runs_fallthrough text c .Other s e cs hg rfl,
          collect_runs_fallthrough text c .Other s (min e text.length) cs
            hg2 rfl]

/-- Claim C8: a node whose range has `start ≥ end`, or whose start is at or
beyond the text length, produces no run and its subtree is not recursed
into (the node contributes nothing at all); for every other node the end
offset is clamped to the text length before the node's runs are computed —
the emitted byte ranges coincide with those of the clamped node and every
emitted range ends at or before the text length. -/
theorem degenerate_guard_and_clamp :
    (∀ (text : List Nat) (c : Option Nat) (k : NodeKind) (s e : Nat)
       (cs : List MarkdownSpan), s ≥ e ∨ s ≥ text.length →
       collect_runs text c (.mk k (s, e) cs) = some [])
    ∧ (∀ (text : List Nat) (c : Option Nat) (k : NodeKind) (s e : Nat)
        (cs : List MarkdownSpan),
        Option.map (List.map AttributeRun.range)
          (collect_runs text c (.mk k (s, e) cs)) =
        Option.map (List.map AttributeRun.range)
          (collect_runs text c (.mk k (s, min e text.length) cs)))
    ∧ (∀ (text : List Nat) (c : Option Nat) (sp : MarkdownSpan)
        (rs : List AttributeRun), collect_runs text c sp = some rs →
        ∀ r ∈ rs, r.range.2 ≤ text.length) :=
  ⟨collect_runs_guard, collect_runs_clamp_ranges,
    fun text c sp rs hrs r hr => (collect_runs_bounds text c sp rs hrs r hr).2⟩

theorem degenerate_guard_and_clamp_witness :
    ((5 : Nat) ≥ 3 ∨ (5 : Nat) ≥ tAbc.length)
    ∧ collect_runs tAbc none (.mk .Strong (5, 3) []) = some [] :=
  ⟨by decide, degenerate_guard_and_clamp.1 tAbc none .Strong 5 3 [] (by decide)⟩

/-- Claim C10: for a fixed text and span forest, varying the caret argument
never changes the sequence of byte ranges (nor whether the call panics);
corresponding runs either carry identical attribute sets or are marker
runs whose attributes are toggled between `syntax_hidden` and
`syntax_visible`. -/
theorem cursor_only_toggles_marker_styles :
    ∀ (text : List Nat) (spans : List MarkdownSpan) (c1 c2 : Option Nat),
      optionRel (List.Forall₂ RunRel)
        (compute_attribute_runs text spans c1)
        (compute_attribute_runs text spans c2)
      ∧ Option.map (List.map AttributeRun.range)
          (compute_attribute_runs text spans c1) =
        Option.map (List.map AttributeRun.range)
          (compute_attribute_runs text spans c2) := by
  intro text spans c1 c2
  have hl := collect_runs_list_cursor_rel text c1 c2 spans
  unfold compute_attribute_runs
  cases h1 : collect_runs_list text c1 spans with
  | none =>
    cases h2 : collect_runs_list text c2 spans with
    | none => exact ⟨trivial, rfl⟩
    | some b => rw [h1, h2] at hl; exact absurd hl (by simp [optionRel])
  | some a =>
    cases h2 : collect_runs_list text c2 spans with
    | none => rw [h1, h2] at hl; exact absurd hl (by simp [optionRel])
    | some b =>
      rw [h1, h2] at hl
      have hfg : List.Forall₂ RunRel (fill_gaps text.length a)
          (fill_gaps text.length b) := by
        unfold fill_gaps
        exact fillGapsGo_rel (sortRuns_rel hl) text.length 0
      exact ⟨hfg, by dsimp only [Option.map]; rw [forall₂_map_range hfg]⟩

theorem for_heading_attribute_table_witness :
    (AttributeSet.for_heading 1).contains .Bold = true :=
  (for_heading_attribute_table 1).1

end Mdit
